import Mathlib

/-!
# Blacksmith backend — verification of the coordination core

A shallow embedding of the coordination core of the `blacksmith` backend
(`backend/index.js` and `backend/algo.js`): the update orchestrator
(`processUpdate` and the `/update` handler), the per-language checkpoint
store (`/approve`, `/reject`, `/save-file`, `/file-diff`), and the
`algo` generation wrapper.

File trees are association lists from path to content.  A workspace is a
file tree together with a git index (stage), a HEAD snapshot and a commit
history; the git subprocess calls of the source (`git checkout -- .`,
`git clean -fd`, `git add -A`, `git diff --cached --name-only`,
`git commit`, `git reset HEAD`) are modelled at the snapshot level.
External effects (the OpenAI call inside `algo`, JSON parsing of its reply,
git subprocess failures, and the arrival time of the cancellation signal)
are inputs of the model, so theorems quantify over them.
-/

namespace Blacksmith

/-- A file tree: association list from file path to file content.
Lookup returns the first binding for a key. -/
abbrev FileMap := List (String × String)

namespace FileMap

/-- Content of file `f`, if present. -/
def get (m : FileMap) (f : String) : Option String :=
  match m.find? (fun p => p.1 == f) with
  | some p => some p.2
  | none => none

/-- Whether file `f` exists in the tree. -/
def hasKey (m : FileMap) (f : String) : Bool :=
  (m.get f).isSome

/-- `fs.writeFile`: overwrite the file if present, else create it. -/
def setFile (m : FileMap) (f c : String) : FileMap :=
  if m.hasKey f then m.map (fun p => if p.1 == f then (f, c) else p)
  else m ++ [(f, c)]

/-- Write every file of `files` (in `Object.entries` order) into `m`. -/
def writeAll (m : FileMap) (files : FileMap) : FileMap :=
  files.foldl (fun acc p => acc.setFile p.1 p.2) m

/-- Extensional equality of file trees: same content at every path. -/
def equiv (m₁ m₂ : FileMap) : Prop :=
  ∀ f, m₁.get f = m₂.get f

/-- Boolean test for extensional equality (checks the keys of both trees). -/
def beqv (m₁ m₂ : FileMap) : Bool :=
  (m₁.map Prod.fst ++ m₂.map Prod.fst).all (fun k => m₁.get k == m₂.get k)

end FileMap

/-- A version-controlled workspace: working tree, stage (git index), HEAD
snapshot, and commit history (most recent first, with commit message). -/
structure Workspace where
  working : FileMap
  index : FileMap
  head : FileMap
  history : List (String × FileMap)
deriving DecidableEq

namespace Workspace

/-- `git checkout -- .`: restore every tracked file of the working tree from
the index (recreating tracked files that were deleted); untracked files are
left in place. -/
def checkoutAll (ws : Workspace) : Workspace :=
  { ws with working :=
      ws.index ++ ws.working.filter (fun p => !(ws.index.hasKey p.1)) }

/-- `git clean -fd`: delete untracked files from the working tree. -/
def cleanUntracked (ws : Workspace) : Workspace :=
  { ws with working := ws.working.filter (fun p => ws.index.hasKey p.1) }

/-- `git add -A`: stage the entire working tree (including deletions). -/
def addAll (ws : Workspace) : Workspace :=
  { ws with index := ws.working }

/-- `git diff --cached --name-only` produces output exactly when the index
differs from HEAD. -/
def hasStagedChanges (ws : Workspace) : Bool :=
  !(FileMap.beqv ws.index ws.head)

/-- `git commit -m msg`: the index becomes the new HEAD snapshot and is
recorded in the history. -/
def commit (ws : Workspace) (msg : String) : Workspace :=
  { ws with head := ws.index, history := (msg, ws.index) :: ws.history }

/-- `git reset HEAD`: unstage everything (index back to HEAD). -/
def resetHead (ws : Workspace) : Workspace :=
  { ws with index := ws.head }

/-- The reset used by the orchestrator and by revert:
`git checkout -- .` followed by `git clean -fd`. -/
def resetToIndex (ws : Workspace) : Workspace :=
  ws.checkoutAll.cleanUntracked

end Workspace

/-! ## The generation wrapper (`backend/algo.js`)

`algo` builds a prompt from the English specification string and the
target's current files, sends it to the OpenAI chat API, and parses the
reply as JSON.  The network call and the JSON parse are external effects:
they are modelled as an `LLMResult` input.  Prompt construction
(`parseFileStructure`, `getFileExtension`) only feeds the external call, so
it does not appear in the model beyond the strings passed in. -/

/-- A parsed JSON value, as far as `isValidFileStructure` inspects it: a
string, or any non-string value (number, array, nested object, null),
carrying its rendering. -/
inductive JsVal where
  | str (s : String)
  | nonString (rendered : String)
deriving DecidableEq

/-- Outcome of the OpenAI call inside `algo`, combined with the JSON parse
of its reply.
* `threw msg`: the API call rejected with an error whose message is `msg`.
* `parseError msg raw`: the call replied with text `raw` on which
  `JSON.parse` (after markdown stripping) failed with message `msg`.
* `parsedNonObject rendered`: the reply parsed to a non-object JSON value.
* `parsed obj rendered`: the reply parsed to a JSON object with fields
  `obj`; `rendered` is its `JSON.stringify` rendering. -/
inductive LLMResult where
  | threw (msg : String)
  | parseError (msg : String) (raw : String)
  | parsedNonObject (rendered : String)
  | parsed (obj : List (String × JsVal)) (rendered : String)
deriving DecidableEq

/-- One field of the parsed object passes `isValidFileStructure`: its value
is a string, and the key is non-empty and contains neither a null character
nor a slash. -/
def validEntry (p : String × JsVal) : Bool :=
  (match p.2 with | .str _ => true | .nonString _ => false) &&
    (p.1 != "" && !(p.1.contains (Char.ofNat 0)) && !(p.1.contains '/'))

/-- `isValidFileStructure` from `backend/algo.js`, applied to a parsed JSON
object: every field valid, and at least one file. -/
def isValidFileStructure (obj : List (String × JsVal)) : Bool :=
  obj.all validEntry && !obj.isEmpty

/-- Field values of a parsed object as plain strings (valid objects only
carry `.str` values, so the `.nonString` branch is never hit for them). -/
def strEntries (obj : List (String × JsVal)) : FileMap :=
  obj.map (fun p => (p.1, match p.2 with | .str s => s | .nonString r => r))

/-- `algo` from `backend/algo.js`.  The English specification string and the
old language string are consumed only by prompt construction for the
external call; the call itself and the JSON parse are given by `llm`.
Every failure branch is caught inside `algo` and turned into fallback
error files, so `algo` itself never throws and never returns a non-object. -/
def algo (language : String) (_englishString _oldLanguageString : String)
    (llm : LLMResult) : FileMap :=
  match llm with
  | .threw msg =>
      [("error.txt", "Error calling GPT-5: " ++ msg),
       ("fallback.txt", "Fallback content for " ++ language)]
  | .parseError msg raw =>
      [("error.txt", "Failed to parse GPT-5 response: " ++ msg),
       ("raw_response.txt", raw)]
  | .parsedNonObject rendered =>
      [("error.txt", "Invalid file structure returned by GPT-5"),
       ("raw_response.txt", rendered)]
  | .parsed obj rendered =>
      if isValidFileStructure obj then strEntries obj
      else [("error.txt", "Invalid file structure returned by GPT-5"),
            ("raw_response.txt", rendered)]

/-- The generation call "failed" in the sense of the specification: the API
call threw, or the reply was unparsable, or it parsed to a malformed or
empty file structure. -/
def LLMResult.failed : LLMResult → Bool
  | .threw _ => true
  | .parseError _ _ => true
  | .parsedNonObject _ => true
  | .parsed obj _ => !(isValidFileStructure obj)

/-- `concatenateFiles` from `backend/index.js`: renders a file tree as one
string with a header line per file. -/
def concatenateFiles (filesObj : FileMap) : String :=
  filesObj.foldl (fun acc p => acc ++ "=== " ++ p.1 ++ " ===\n" ++ p.2 ++ "\n\n") ""

/-! ## Paths and the `/save-file` handler

Paths are modelled as component lists relative to the filesystem root;
`path.join` concatenates and normalizes (`.` removed, `..` resolved, a
`..` at the root dropped).  The handler's security check compares rendered
path strings byte-wise, exactly as the source's
`fullPath.startsWith(basePath)` does. -/

/-- Split a character list at slashes, accumulating the current (reversed)
component. -/
def splitSlash : List Char → List Char → List String
  | [], cur => [String.mk cur.reverse]
  | c :: rest, cur =>
      if c = '/' then String.mk cur.reverse :: splitSlash rest []
      else splitSlash rest (c :: cur)

/-- Split a POSIX path string into components (empty components dropped). -/
def splitPath (s : String) : List String :=
  (splitSlash s.toList []).filter (fun c => c != "")

/-- Path normalization over components, as `path.join` performs it on an
absolute path: drop `.`, resolve `..` against the previous component, drop
a `..` that would climb above the root. -/
def normSegs (segs : List String) : List String :=
  segs.foldl (fun acc c =>
    if c = "." then acc
    else if c = ".." then acc.dropLast
    else acc ++ [c]) []

/-- `path.join(base, rel)` for an absolute `base` given as components. -/
def joinPath (base : List String) (rel : String) : List String :=
  normSegs (base ++ splitPath rel)

/-- Render an absolute component list as node renders absolute paths. -/
def renderPath (segs : List String) : String :=
  segs.foldl (fun acc c => acc ++ "/" ++ c) ""

/-- The JavaScript `fullPath.startsWith(basePath)` check: byte-wise string
prefix test on the rendered paths. -/
def jsStartsWith (full base : String) : Bool :=
  base.toList.isPrefixOf full.toList

/-- The hardcoded list of the ten target languages (`LANGUAGES`). -/
def LANGUAGES : List String :=
  ["javascript", "python", "java", "csharp", "cpp",
   "ruby", "go", "rust", "swift", "kotlin"]

/-- `path.join(__dirname, '..', 'files')`, modelled with the repository
root as filesystem root. -/
def filesRoot : List String := ["files"]

/-- The workspace root directory for a language (or for `english`). -/
def basePathOf (language : String) : List String :=
  if language = "english" then filesRoot ++ ["english"]
  else filesRoot ++ ["languages", language]

/-- Result of the `POST /save-file` handler.
On `saved p`, the handler has created the parent directories of the
absolute path `p`, written `content` there, and staged the whole
workspace with `git add -A`. -/
inductive SaveResult where
  | missingParams
  | invalidLanguage
  | invalidPath
  | saved (absPath : List String)
deriving DecidableEq

/-- The `POST /save-file` handler from `backend/index.js` (validation and
path computation; a missing `content` field is not representable here since
`content` is a `String`). -/
def saveFile (language filePath _content : String) : SaveResult :=
  if language = "" ∨ filePath = "" then .missingParams
  else if language ≠ "english" ∧ language ∉ LANGUAGES then .invalidLanguage
  else
    let basePath := basePathOf language
    let fullPath := joinPath basePath filePath
    if jsStartsWith (renderPath fullPath) (renderPath basePath) then .saved fullPath
    else .invalidPath

/-! ## The update orchestrator (`processUpdate` and the `/update` handler)

The pipeline of `processUpdate` is modelled as a function of the run's
external effects: the per-language OpenAI outcome, the arrival time of the
cancellation signal (measured in reads of `signal.aborted`), and which of
the try/catch-wrapped git subprocesses throw.  A thrown git subprocess is
modelled as leaving the workspace unchanged (the source merely logs it).
Shared setup (`ensureFilesFolder` / `ensureGitRepo`) is elided: workspaces
are assumed to exist, as they do after any first run. -/

/-- External effects of one run. `abortFrom = some k` means that the k-th
read of `signal.aborted` (0-based, counting every read the pipeline makes)
is the first one to return `true`; the flag is sticky, matching
`AbortController`.  A `checkout`/`clean` pair that shares one try/catch in
the source is modelled as one atomic operation: when its flag is set, the
pair throws and the workspace is left unchanged. -/
structure RunEnv where
  llm : String → LLMResult
  abortFrom : Option ℕ
  resetFails : String → Bool
  revertFails : String → Bool
  stageEnglishFails : Bool
  stageLangFails : String → Bool
  diffEnglishFails : Bool
  commitEnglishFails : Bool

/-- No git subprocess of the run throws. -/
def RunEnv.gitOk (env : RunEnv) : Prop :=
  (∀ l, env.resetFails l = false) ∧ (∀ l, env.revertFails l = false) ∧
    env.stageEnglishFails = false ∧ (∀ l, env.stageLangFails l = false) ∧
    env.diffEnglishFails = false ∧ env.commitEnglishFails = false

/-- Observable actions of the pipeline, in execution order: assignments to
`updateProgress.progress`, and the git/file side effects on workspaces. -/
inductive Event where
  | progressSet (p : ℚ)
  | resetLang (language : String)
  | writeFiles (language : String) (files : FileMap)
  | stageEnglish
  | stageLang (language : String)
  | commitEnglish (msg : String)
  | revertLang (language : String)
deriving DecidableEq

/-- State threaded through the pipeline: the english workspace, one
workspace per language, `processedLanguages`, the number of
`signal.aborted` reads so far, the current `updateProgress.progress`, and
the trace of events so far. -/
structure PipeState where
  english : Workspace
  langs : String → Workspace
  processed : List String
  clock : ℕ
  progress : ℚ
  trace : List Event

/-- Whether `signal.aborted` reads `true` at the given read count. -/
def isAborted (env : RunEnv) (clock : ℕ) : Bool :=
  match env.abortFrom with
  | some a => decide (a ≤ clock)
  | none => false

/-- One read of `signal.aborted`. -/
def consult (env : RunEnv) (st : PipeState) : Bool × PipeState :=
  (isAborted env st.clock, { st with clock := st.clock + 1 })

/-- `updateProgress.progress = p`. -/
def setProgress (p : ℚ) (st : PipeState) : PipeState :=
  { st with progress := p, trace := st.trace ++ [.progressSet p] }

/-- Record a non-progress event. -/
def recordEvent (e : Event) (st : PipeState) : PipeState :=
  { st with trace := st.trace ++ [e] }

/-- Replace one language's workspace. -/
def updateLang (st : PipeState) (language : String) (ws : Workspace) : PipeState :=
  { st with langs := fun l => if l = language then ws else st.langs l }

/-- The number of target languages, as a rational (`LANGUAGES.length`). -/
def numLangs : ℚ := (LANGUAGES.length : ℚ)

/-- The reset loop: per language, set progress, then (unless the git call
throws) discard unstaged changes and untracked files. -/
def resetLoop (env : RunEnv) : List (ℕ × String) → PipeState → PipeState
  | [], st => st
  | (i, language) :: rest, st =>
      let st := setProgress (1/10 + (1/10) * i / numLangs) st
      let st :=
        if env.resetFails language then st
        else recordEvent (.resetLang language)
          (updateLang st language ((st.langs language).resetToIndex))
      resetLoop env rest st

/-- One iteration of `revertProcessedLanguages`: unless the git call
throws, discard the language's working tree changes and untracked files. -/
def revertStep (env : RunEnv) (st : PipeState) (language : String) : PipeState :=
  if env.revertFails language then st
  else recordEvent (.revertLang language)
    (updateLang st language ((st.langs language).resetToIndex))

/-- `revertProcessedLanguages`: revert every processed language. -/
def revertAll (env : RunEnv) (st : PipeState) : PipeState :=
  st.processed.foldl (revertStep env) st

/-- Result of the per-language generation loop. -/
inductive GenOutcome where
  | finished (st : PipeState)
  | cancelledInLoop (st : PipeState)

/-- The per-language generation loop.  Each iteration: cancellation check
(reverting everything processed so far and aborting if cancelled), progress
update, read the target's files, call `algo` (not cancellable mid-flight),
second cancellation check, then write the returned files and mark the
language processed.  `algo` always returns a non-null object, so the
source's `if (result && typeof result === 'object')` guard always takes the
write branch. -/
def genLoop (env : RunEnv) (englishString : String) :
    List (ℕ × String) → PipeState → GenOutcome
  | [], st => .finished st
  | (i, language) :: rest, st =>
      let c := consult env st
      if c.1 then .cancelledInLoop (revertAll env c.2)
      else
        let st := setProgress (1/4 + (11/20) * i / numLangs) c.2
        let oldLanguageString := concatenateFiles (st.langs language).working
        let result := algo language englishString oldLanguageString (env.llm language)
        let c2 := consult env st
        if c2.1 then .cancelledInLoop (revertAll env c2.2)
        else
          let st := c2.2
          let ws := st.langs language
          let ws := { ws with working := ws.working.writeAll result }
          let st := recordEvent (.writeFiles language result) (updateLang st language ws)
          let st := { st with processed := st.processed ++ [language] }
          genLoop env englishString rest st

/-- The fixed auto-checkpoint message for the english workspace. -/
def englishCommitMsg : String := "Update English specification"

/-- Per-language staging loop: set progress, then (unless the git call
throws) `git add -A`. -/
def stageLoop (env : RunEnv) : List (ℕ × String) → PipeState → PipeState
  | [], st => st
  | (i, language) :: rest, st =>
      let st := setProgress (17/20 + (1/10) * i / numLangs) st
      let st :=
        if env.stageLangFails language then st
        else recordEvent (.stageLang language)
          (updateLang st language ((st.langs language).addAll))
      stageLoop env rest st

/-- The final staging phase: stage english, stage every language, then
auto-commit the english workspace if it has staged changes.  Every git
call here is try/catch-wrapped in the source, so a failure merely skips
the corresponding effect. -/
def stagingPhase (env : RunEnv) (st : PipeState) : PipeState :=
  let st := setProgress (4/5) st
  let st := setProgress (17/20) st
  let st :=
    if env.stageEnglishFails then st
    else recordEvent .stageEnglish { st with english := st.english.addAll }
  let st := stageLoop env LANGUAGES.enum st
  let st := setProgress (19/20) st
  if env.diffEnglishFails then st
  else if st.english.hasStagedChanges then
    if env.commitEnglishFails then st
    else recordEvent (.commitEnglish englishCommitMsg)
      { st with english := st.english.commit englishCommitMsg }
  else st

/-- How one run terminates, as observed by the `/update` handler. -/
inductive RunOutcome where
  | success (processed : List String)
  | cancelled
deriving DecidableEq

/-- The catch block of `processUpdate` on the cancellation path: it reads
`signal.aborted` once more (necessarily still true) and reverts every
processed language again, then rethrows the cancellation. -/
def cancelCatch (env : RunEnv) (st : PipeState) : RunOutcome × PipeState :=
  let c := consult env st
  (.cancelled, revertAll env c.2)

/-- `processUpdate` from `backend/index.js`, as a function of the run's
external effects. -/
def processUpdate (env : RunEnv) (st : PipeState) : RunOutcome × PipeState :=
  let c := consult env st
  if c.1 then cancelCatch env c.2
  else
    let st := setProgress (1/20) c.2
    let st := setProgress (1/10) st
    let st := resetLoop env LANGUAGES.enum st
    let c := consult env st
    if c.1 then cancelCatch env c.2
    else
      let st := setProgress (1/5) c.2
      let englishString := concatenateFiles st.english.working
      match genLoop env englishString LANGUAGES.enum st with
      | .cancelledInLoop st => cancelCatch env st
      | .finished st =>
          let c := consult env st
          let st := if c.1 then c.2 else stagingPhase env c.2
          let st := setProgress 1 st
          (.success st.processed, st)

/-- The `POST /update` handler resets `updateProgress` to
`{progress: 0, isRunning: true, error: null}` before launching the
pipeline; the initial assignment is recorded in the trace. -/
def initState (english : Workspace) (langs : String → Workspace) : PipeState :=
  { english := english, langs := langs, processed := [], clock := 0,
    progress := 0, trace := [.progressSet 0] }

/-- The fields of the `updateProgress` singleton that the claims are about
(`progress_message` and `startTime` are elided). -/
structure Progress where
  progress : ℚ
  isRunning : Bool
  error : Option String
deriving DecidableEq

/-- The terminal `updateProgress` value written by the `.then`/`.catch`
handlers of the `/update` route (for a run that is still the current one):
on success progress 1 and no error; on cancellation the error message with
the progress left at its last value. -/
def finalProgress : RunOutcome × PipeState → Progress
  | (.success _, _) => { progress := 1, isRunning := false, error := none }
  | (.cancelled, st) =>
      { progress := st.progress, isRunning := false, error := some "Request cancelled" }

/-- The progress value carried by an event, if it is a progress write. -/
def Event.progVal : Event → Option ℚ
  | .progressSet p => some p
  | _ => none

/-- Whether an event is a staging or committing operation. -/
def Event.isStaging : Event → Bool
  | .stageEnglish => true
  | .stageLang _ => true
  | .commitEnglish _ => true
  | _ => false

/-- Whether an event is a revert of a processed language. -/
def Event.isRevert : Event → Bool
  | .revertLang _ => true
  | _ => false

/-- The `updateProgress.progress` values of a trace, in write order. -/
def progressValues (tr : List Event) : List ℚ :=
  tr.filterMap Event.progVal

/-- The progress value the reset loop assigns at index `i`:
`0.1 + 0.1 * i / LANGUAGES.length`. -/
def fReset (i : ℕ) : ℚ := 1/10 + (1/10) * i / numLangs

/-- The progress value the generation loop assigns at index `i`:
`0.25 + 0.55 * i / LANGUAGES.length`. -/
def fGen (i : ℕ) : ℚ := 1/4 + (11/20) * i / numLangs

/-- The progress value the staging loop assigns at index `i`:
`0.85 + 0.1 * i / LANGUAGES.length`. -/
def fStage (i : ℕ) : ℚ := 17/20 + (1/10) * i / numLangs

/-- The monotonicity invariant of the progress trace: the written progress
values form a non-decreasing chain whose last element is the current
progress value. -/
def Mono (st : PipeState) : Prop :=
  List.Chain' (· ≤ ·) (progressValues st.trace) ∧
    (progressValues st.trace).getLast? = some st.progress

/-- The pipeline state after the setup progress writes and the reset loop
(used to state what a never-cancelled run computes). -/
def stateAfterReset (env : RunEnv) (st₀ : PipeState) : PipeState :=
  resetLoop env LANGUAGES.enum
    (setProgress (1/10) (setProgress (1/20) { st₀ with clock := st₀.clock + 1 }))

/-- The pipeline state right before the generation loop of a
never-cancelled run. -/
def stateBeforeGen (env : RunEnv) (st₀ : PipeState) : PipeState :=
  setProgress (1/5)
    { stateAfterReset env st₀ with clock := (stateAfterReset env st₀).clock + 1 }

/-- The english specification string read once per run and reused for all
targets. -/
def englishStringOf (env : RunEnv) (st₀ : PipeState) : String :=
  concatenateFiles (stateBeforeGen env st₀).english.working

/-! ## The per-language checkpoint store (`/approve`, `/reject`, `/file-diff`)

Each handler operates on the workspace of the requested language; the
workspace (and whether its folder exists on disk) are parameters.  Git
subprocesses inside these handlers are assumed to succeed (a throw would
surface as a 500 response, which no claim covers). -/

/-- The commit message used by `/approve`: `req.body.message || default`,
where JavaScript treats an absent and an empty message alike. -/
def approveMsg (language : String) (message : Option String) : String :=
  match message with
  | some m => if m = "" then "Approve " ++ language ++ " implementation" else m
  | none => "Approve " ++ language ++ " implementation"

/-- Result of the `POST /approve` handler. -/
inductive ApproveResult where
  | missingLanguage
  | invalidLanguage
  | notFound
  | committed (message : String)
  | noStagedChanges
deriving DecidableEq

/-- The `POST /approve` handler: validate the language, require the folder,
discard unstaged changes (`git checkout -- .`, no clean), then commit the
staged changes if there are any. -/
def approve (language : String) (message : Option String)
    (folderExists : Bool) (ws : Workspace) : ApproveResult × Workspace :=
  if language = "" then (.missingLanguage, ws)
  else if language ∉ LANGUAGES then (.invalidLanguage, ws)
  else if !folderExists then (.notFound, ws)
  else
    let ws := ws.checkoutAll
    if ws.hasStagedChanges then
      let msg := approveMsg language message
      (.committed msg, ws.commit msg)
    else (.noStagedChanges, ws)

/-- Result of the `POST /reject` handler. -/
inductive RejectResult where
  | missingLanguage
  | invalidLanguage
  | notFound
  | reverted
  | noStagedChanges
deriving DecidableEq

/-- The `POST /reject` handler: validate the language, require the folder;
if something is staged, run `git reset HEAD`, `git checkout -- .`,
`git clean -fd`; otherwise answer without touching the workspace. -/
def reject (language : String) (folderExists : Bool) (ws : Workspace) :
    RejectResult × Workspace :=
  if language = "" then (.missingLanguage, ws)
  else if language ∉ LANGUAGES then (.invalidLanguage, ws)
  else if !folderExists then (.notFound, ws)
  else if ws.hasStagedChanges then (.reverted, ws.resetHead.resetToIndex)
  else (.noStagedChanges, ws)

/-- Result of the `GET /file-diff` handler. -/
inductive DiffResult where
  | missingParams
  | ok (original modified : String)
deriving DecidableEq

/-- The `GET /file-diff` handler: no language validation, no folder check
and no path check.  `ws` is the workspace living at `basePathOf language`;
`fsRead` is the surrounding filesystem (`git show HEAD:path` falls back to
the empty string when the path is not a tracked file of `ws`, which the
source arranges with `2>/dev/null || echo ""`). -/
def fileDiff (language filePath : String) (ws : Workspace)
    (fsRead : List String → Option String) : DiffResult :=
  if language = "" ∨ filePath = "" then .missingParams
  else
    let basePath := basePathOf language
    let fullPath := joinPath basePath filePath
    .ok ((ws.head.get filePath).getD "") ((fsRead fullPath).getD "")

/-! ## Concrete scenarios used as witnesses and counterexamples -/

/-- A fresh workspace with no files and no history. -/
def emptyWs : Workspace := ⟨[], [], [], []⟩

/-- A language workspace with one committed file `main.txt`, clean. -/
def cleanLangWs : Workspace :=
  ⟨[("main.txt", "old")], [("main.txt", "old")], [("main.txt", "old")],
   [("init", [("main.txt", "old")])]⟩

/-- An english workspace with a manual unstaged edit to `spec.md`
(working tree `v2`, index and HEAD `v1`). -/
def dirtyEnglishWs : Workspace :=
  ⟨[("spec.md", "v2")], [("spec.md", "v1")], [("spec.md", "v1")],
   [("init", [("spec.md", "v1")])]⟩

/-- A workspace with one staged edit (`a.txt` staged as `1`) and one
unstaged-only edit (`b.txt` edited to `2` in the working tree but staged
as `0`). -/
def stagedLangWs : Workspace :=
  ⟨[("a.txt", "1"), ("b.txt", "2")], [("a.txt", "1"), ("b.txt", "0")],
   [("a.txt", "0"), ("b.txt", "0")], [("init", [("a.txt", "0"), ("b.txt", "0")])]⟩

/-- A workspace with a dirty working tree but nothing staged
(index equal to HEAD). -/
def unstagedLangWs : Workspace :=
  ⟨[("a.txt", "2")], [("a.txt", "1")], [("a.txt", "1")],
   [("init", [("a.txt", "1")])]⟩

/-- An environment whose OpenAI call always throws, with no cancellation
and no git failures. -/
def envBoom : RunEnv :=
  { llm := fun _ => .threw "boom", abortFrom := none,
    resetFails := fun _ => false, revertFails := fun _ => false,
    stageEnglishFails := false, stageLangFails := fun _ => false,
    diffEnglishFails := false, commitEnglishFails := false }

/-- `envBoom`, but the signal aborts at the fifth read of
`signal.aborted` — the pre-generation checkpoint of the second language,
after `javascript` has been written. -/
def envCancel : RunEnv :=
  { envBoom with abortFrom := some 4 }

/-- `envBoom`, but the `git commit` of the english auto-checkpoint
throws. -/
def envCommitFail : RunEnv :=
  { envBoom with commitEnglishFails := true }

/-- Initial pipeline state for the concrete scenarios: a dirty english
workspace and clean language workspaces. -/
def stScenario : PipeState :=
  initState dirtyEnglishWs (fun _ => cleanLangWs)

/-! ## Lemmas about file trees -/

theorem FileMap.get_eq_none_of_not_mem_keys {m : FileMap} {k : String}
    (h : k ∉ m.map Prod.fst) : m.get k = none := by
  unfold FileMap.get
  rw [List.find?_eq_none.mpr]
  intro p hp
  simp only [beq_iff_eq]
  intro hk
  exact h (List.mem_map.mpr ⟨p, hp, hk⟩)

theorem FileMap.beqv_iff_equiv (m₁ m₂ : FileMap) :
    FileMap.beqv m₁ m₂ = true ↔ FileMap.equiv m₁ m₂ := by
  constructor
  · intro h f
    rcases Decidable.em (f ∈ m₁.map Prod.fst ∨ f ∈ m₂.map Prod.fst) with hmem | hmem
    · have := (List.all_eq_true.mp h) f (by
        rcases hmem with h1 | h1
        · exact List.mem_append.mpr (Or.inl h1)
        · exact List.mem_append.mpr (Or.inr h1))
      exact beq_iff_eq.mp this
    · push_neg at hmem
      rw [FileMap.get_eq_none_of_not_mem_keys hmem.1,
        FileMap.get_eq_none_of_not_mem_keys hmem.2]
  · intro h
    apply List.all_eq_true.mpr
    intro k _
    exact beq_iff_eq.mpr (h k)

theorem FileMap.hasKey_of_mem {m : FileMap} {p : String × String} (h : p ∈ m) :
    m.hasKey p.1 = true := by
  unfold FileMap.hasKey FileMap.get
  cases hfind : m.find? (fun q => q.1 == p.1) with
  | some q => simp
  | none => exact absurd (List.find?_eq_none.mp hfind p h) (by simp)

theorem FileMap.hasKey_iff_exists (m : FileMap) (f : String) :
    m.hasKey f = true ↔ ∃ p ∈ m, p.1 = f := by
  unfold FileMap.hasKey FileMap.get
  cases hfind : m.find? (fun q => q.1 == f) with
  | some q =>
      simp only [Option.isSome_some, true_iff]
      have hq := List.find?_some hfind
      exact ⟨q, List.mem_of_find?_eq_some hfind, beq_iff_eq.mp hq⟩
  | none =>
      constructor
      · intro h
        exact absurd h (by simp)
      · rintro ⟨p, hp, hk⟩
        exact absurd (beq_iff_eq.mpr hk)
          (by simpa using List.find?_eq_none.mp hfind p hp)

theorem FileMap.get_cons (p : String × String) (m : FileMap) (f : String) :
    FileMap.get (p :: m) f = if p.1 == f then some p.2 else m.get f := by
  unfold FileMap.get
  rw [List.find?_cons]
  cases p.1 == f <;> simp

theorem FileMap.keys_setFile (m : FileMap) (g c : String) :
    (m.setFile g c).map Prod.fst = m.map Prod.fst ∨
      (m.setFile g c).map Prod.fst = m.map Prod.fst ++ [g] := by
  unfold FileMap.setFile
  by_cases h : m.hasKey g = true
  · left
    simp only [h, if_true, List.map_map]
    apply List.map_congr_left
    intro p _
    by_cases hpg : (p.1 == g) = true
    · simp [Function.comp, hpg, beq_iff_eq.mp hpg]
    · simp [Function.comp, hpg]
  · right
    simp [h]

theorem FileMap.hasKey_setFile_of_hasKey {m : FileMap} {f : String} (g c : String)
    (h : m.hasKey f = true) : (m.setFile g c).hasKey f = true := by
  have hmem : f ∈ m.map Prod.fst := by
    rcases (FileMap.hasKey_iff_exists m f).mp h with ⟨p, hp, hk⟩
    exact List.mem_map.mpr ⟨p, hp, hk⟩
  have hmem2 : f ∈ (m.setFile g c).map Prod.fst := by
    rcases FileMap.keys_setFile m g c with hk | hk
    · rw [hk]; exact hmem
    · rw [hk]; exact List.mem_append.mpr (Or.inl hmem)
  rcases List.mem_map.mp hmem2 with ⟨p, hp, hk⟩
  rw [← hk]
  exact FileMap.hasKey_of_mem hp

theorem FileMap.hasKey_setFile_self (m : FileMap) (f c : String) :
    (m.setFile f c).hasKey f = true := by
  unfold FileMap.setFile
  by_cases hm : m.hasKey f = true
  · rcases (FileMap.hasKey_iff_exists m f).mp hm with ⟨p, hp, hk⟩
    rw [if_pos hm]
    apply (FileMap.hasKey_iff_exists _ f).mpr
    refine ⟨if p.1 == f then (f, c) else p, List.mem_map.mpr ⟨p, hp, rfl⟩, ?_⟩
    rw [if_pos (beq_iff_eq.mpr hk)]
  · rw [if_neg hm]
    apply (FileMap.hasKey_iff_exists _ f).mpr
    exact ⟨(f, c), List.mem_append.mpr (Or.inr (by simp)), rfl⟩

theorem FileMap.writeAll_nil (m : FileMap) : m.writeAll [] = m := rfl

theorem FileMap.writeAll_cons (m : FileMap) (p : String × String) (rest : FileMap) :
    m.writeAll (p :: rest) = (m.setFile p.1 p.2).writeAll rest := rfl

theorem FileMap.hasKey_writeAll_left {m : FileMap} {f : String} (files : FileMap)
    (h : m.hasKey f = true) : (m.writeAll files).hasKey f = true := by
  induction files generalizing m with
  | nil => exact h
  | cons p rest ih =>
      rw [FileMap.writeAll_cons]
      exact ih (FileMap.hasKey_setFile_of_hasKey p.1 p.2 h)

theorem FileMap.hasKey_writeAll_right {files : FileMap} {f : String} (m : FileMap)
    (h : files.hasKey f = true) : (m.writeAll files).hasKey f = true := by
  induction files generalizing m with
  | nil =>
      unfold FileMap.hasKey FileMap.get at h
      simp [List.find?_nil] at h
  | cons p rest ih =>
      rw [FileMap.writeAll_cons]
      by_cases hpf : p.1 == f
      · exact FileMap.hasKey_writeAll_left rest
          (beq_iff_eq.mp hpf ▸ FileMap.hasKey_setFile_self m p.1 p.2)
      · apply ih
        unfold FileMap.hasKey at h
        rw [FileMap.get_cons, if_neg hpf] at h
        exact h

theorem FileMap.get_append (m₁ m₂ : FileMap) (f : String) :
    FileMap.get (m₁ ++ m₂) f =
      if m₁.hasKey f then m₁.get f else m₂.get f := by
  unfold FileMap.hasKey FileMap.get
  rw [List.find?_append]
  cases hfind : m₁.find? (fun q => q.1 == f) <;> simp [Option.or]

/-! ## Lemmas about workspaces -/

theorem Workspace.resetToIndex_working (ws : Workspace) :
    ws.resetToIndex.working = ws.index := by
  unfold Workspace.resetToIndex Workspace.checkoutAll Workspace.cleanUntracked
  simp only [List.filter_append]
  rw [List.filter_eq_self.mpr, List.filter_filter]
  · rw [List.filter_eq_nil_iff.mpr, List.append_nil]
    intro p _
    simp only [Bool.not_eq_true, Bool.and_eq_true]
    intro ⟨h1, h2⟩
    rw [h1] at h2
    exact absurd h2 (by simp)
  · intro p hp
    exact FileMap.hasKey_of_mem hp

theorem Workspace.resetToIndex_index (ws : Workspace) :
    ws.resetToIndex.index = ws.index := rfl

theorem Workspace.resetToIndex_head (ws : Workspace) :
    ws.resetToIndex.head = ws.head := rfl

theorem Workspace.resetToIndex_history (ws : Workspace) :
    ws.resetToIndex.history = ws.history := rfl

theorem Workspace.checkoutAll_working_get_tracked (ws : Workspace) (f : String)
    (h : ws.index.hasKey f = true) :
    ws.checkoutAll.working.get f = ws.index.get f := by
  unfold Workspace.checkoutAll
  simp only
  rw [FileMap.get_append, if_pos h]

/-! ## Lemmas about the generation wrapper -/

theorem algo_ne_nil (language e o : String) (llm : LLMResult) :
    algo language e o llm ≠ [] := by
  cases llm with
  | threw msg => simp [algo]
  | parseError msg raw => simp [algo]
  | parsedNonObject rendered => simp [algo]
  | parsed obj rendered =>
      simp only [algo]
      split
      · rename_i hvalid
        have : !obj.isEmpty := (Bool.and_elim_right (by exact hvalid))
        simp only [strEntries, ne_eq, List.map_eq_nil_iff]
        intro hnil
        rw [hnil] at this
        simp [List.isEmpty] at this
      · simp

/-- When the generation call failed, `algo` returns the fallback error
files: the result contains `error.txt`. -/
theorem algo_failed_error_file (language e o : String) (llm : LLMResult)
    (h : llm.failed = true) :
    (FileMap.get (algo language e o llm) "error.txt").isSome = true := by
  cases llm with
  | threw msg => simp [algo, FileMap.get, List.find?]
  | parseError msg raw => simp [algo, FileMap.get, List.find?]
  | parsedNonObject rendered => simp [algo, FileMap.get, List.find?]
  | parsed obj rendered =>
      simp only [LLMResult.failed, Bool.not_eq_true'] at h
      simp [algo, h, FileMap.get, List.find?]

/-! ## Lemmas about paths -/

theorem renderPath_foldl (a : String) (l : List String) :
    l.foldl (fun acc c => acc ++ "/" ++ c) a =
      a ++ l.foldl (fun acc c => acc ++ "/" ++ c) "" := by
  induction l generalizing a with
  | nil => simp
  | cons c l ih =>
      simp only [List.foldl_cons]
      rw [ih (a ++ "/" ++ c), ih ("" ++ "/" ++ c)]
      simp [String.append_assoc]

theorem renderPath_append (l₁ l₂ : List String) :
    renderPath (l₁ ++ l₂) = renderPath l₁ ++ renderPath l₂ := by
  unfold renderPath
  rw [List.foldl_append, renderPath_foldl]

theorem jsStartsWith_of_under_root {base full : List String}
    (h : base <+: full) :
    jsStartsWith (renderPath full) (renderPath base) = true := by
  rcases h with ⟨t, rfl⟩
  unfold jsStartsWith
  rw [renderPath_append]
  apply List.isPrefixOf_iff_prefix.mpr
  have : (renderPath base ++ renderPath t).toList
      = (renderPath base).toList ++ (renderPath t).toList := by
    simp [String.toList]
  rw [this]
  exact List.prefix_append _ _

/-- Any path whose normalized form stays inside the workspace root passes
the handler's check and is written at that normalized path. -/
theorem saveFile_inside_root_saved (language filePath content : String)
    (hlang : language = "english" ∨ language ∈ LANGUAGES)
    (hl : language ≠ "") (hf : filePath ≠ "")
    (hin : basePathOf language <+: joinPath (basePathOf language) filePath) :
    saveFile language filePath content =
      .saved (joinPath (basePathOf language) filePath) := by
  unfold saveFile
  rw [if_neg (by
    intro h
    rcases h with h | h
    · exact hl h
    · exact hf h)]
  rw [if_neg (by
    intro ⟨h1, h2⟩
    rcases hlang with h | h
    · exact h1 h
    · exact h2 h)]
  simp only [jsStartsWith_of_under_root hin, if_pos]

/-! ## Structural lemmas about the pipeline phases -/

theorem revertFold_spec (env : RunEnv) (l : List String) : ∀ st : PipeState,
    (List.foldl (revertStep env) st l).english = st.english ∧
    (List.foldl (revertStep env) st l).processed = st.processed ∧
    (List.foldl (revertStep env) st l).progress = st.progress ∧
    (∃ t, (List.foldl (revertStep env) st l).trace = st.trace ++ t ∧
      ∀ e ∈ t, ∃ lg, e = Event.revertLang lg) ∧
    (∀ lang,
      ((List.foldl (revertStep env) st l).langs lang).index = (st.langs lang).index ∧
      ((List.foldl (revertStep env) st l).langs lang).head = (st.langs lang).head ∧
      ((List.foldl (revertStep env) st l).langs lang).history = (st.langs lang).history) ∧
    (∀ lang, lang ∉ l → (List.foldl (revertStep env) st l).langs lang = st.langs lang) ∧
    ((∀ lg, env.revertFails lg = false) →
      ∀ lang ∈ l,
        ((List.foldl (revertStep env) st l).langs lang).working = (st.langs lang).index) := by
  induction l with
  | nil =>
      intro st
      refine ⟨rfl, rfl, rfl, ⟨[], by simp, by simp⟩, fun lang => ⟨rfl, rfl, rfl⟩,
        fun lang _ => rfl, fun _ lang hmem => absurd hmem (List.not_mem_nil lang)⟩
  | cons language rest ih =>
      intro st
      rw [List.foldl_cons]
      by_cases hf : env.revertFails language = true
      · have hstep : revertStep env st language = st := by simp [revertStep, hf]
        rw [hstep]
        obtain ⟨h1, h2, h3, h4, h5, h6, h7⟩ := ih st
        refine ⟨h1, h2, h3, h4, h5, fun lang hmem => h6 lang ?_, fun hok => ?_⟩
        · intro hr
          exact hmem (List.mem_cons_of_mem language hr)
        · rw [hok language] at hf
          exact absurd hf (by simp)
      · have hf2 : env.revertFails language = false := by
          cases h : env.revertFails language
          · rfl
          · exact absurd h hf
        have hstep : revertStep env st language =
            recordEvent (.revertLang language)
              (updateLang st language ((st.langs language).resetToIndex)) := by
          simp [revertStep, hf2]
        rw [hstep]
        set st₁ := recordEvent (.revertLang language)
          (updateLang st language ((st.langs language).resetToIndex)) with hst₁
        have hlangs₁ : ∀ lang, st₁.langs lang =
            if lang = language then (st.langs language).resetToIndex
            else st.langs lang := fun lang => rfl
        obtain ⟨h1, h2, h3, h4, h5, h6, h7⟩ := ih st₁
        refine ⟨h1, h2, h3, ?_, ?_, ?_, ?_⟩
        · obtain ⟨t, ht, hall⟩ := h4
          refine ⟨Event.revertLang language :: t, ?_, ?_⟩
          · rw [ht]
            simp [hst₁, recordEvent, updateLang]
          · intro e he
            rcases List.mem_cons.mp he with he | he
            · exact ⟨language, he⟩
            · exact hall e he
        · intro lang
          obtain ⟨hi, hh, hhist⟩ := h5 lang
          rw [hi, hh, hhist, hlangs₁ lang]
          by_cases hl : lang = language
          · subst hl
            simp [Workspace.resetToIndex_index, Workspace.resetToIndex_head,
              Workspace.resetToIndex_history]
          · simp [hl]
        · intro lang hmem
          have hne : lang ≠ language := fun h => hmem (h ▸ List.mem_cons_self lang rest)
          have hnr : lang ∉ rest := fun h => hmem (List.mem_cons_of_mem language h)
          rw [h6 lang hnr, hlangs₁ lang, if_neg hne]
        · intro hok lang hmem
          by_cases hr : lang ∈ rest
          · rw [h7 hok lang hr, hlangs₁ lang]
            by_cases hl : lang = language
            · subst hl
              simp [Workspace.resetToIndex_index]
            · simp [hl]
          · have hl : lang = language := by
              rcases List.mem_cons.mp hmem with h | h
              · exact h
              · exact absurd h hr
            subst hl
            rw [h6 lang hr, hlangs₁ lang, if_pos rfl, Workspace.resetToIndex_working]

theorem revertAll_spec (env : RunEnv) (st : PipeState) :
    (revertAll env st).english = st.english ∧
    (revertAll env st).processed = st.processed ∧
    (revertAll env st).progress = st.progress ∧
    (∃ t, (revertAll env st).trace = st.trace ++ t ∧
      ∀ e ∈ t, ∃ lg, e = Event.revertLang lg) ∧
    (∀ lang,
      ((revertAll env st).langs lang).index = (st.langs lang).index ∧
      ((revertAll env st).langs lang).head = (st.langs lang).head ∧
      ((revertAll env st).langs lang).history = (st.langs lang).history) ∧
    ((∀ lg, env.revertFails lg = false) →
      ∀ lang ∈ st.processed,
        ((revertAll env st).langs lang).working = (st.langs lang).index) := by
  obtain ⟨h1, h2, h3, h4, h5, _, h7⟩ := revertFold_spec env st.processed st
  exact ⟨h1, h2, h3, h4, h5, h7⟩

theorem resetLoop_spec (env : RunEnv) : ∀ (l : List (ℕ × String)) (st : PipeState),
    (resetLoop env l st).english = st.english ∧
    (resetLoop env l st).processed = st.processed ∧
    (resetLoop env l st).clock = st.clock ∧
    (∃ t, (resetLoop env l st).trace = st.trace ++ t ∧
      ∀ e ∈ t, e.isStaging = false ∧ e.isRevert = false) ∧
    (∀ lang,
      ((resetLoop env l st).langs lang).index = (st.langs lang).index ∧
      ((resetLoop env l st).langs lang).head = (st.langs lang).head ∧
      ((resetLoop env l st).langs lang).history = (st.langs lang).history) ∧
    (∀ lang, lang ∉ l.map Prod.snd → (resetLoop env l st).langs lang = st.langs lang) ∧
    ((∀ lg, env.resetFails lg = false) →
      ∀ p ∈ l, ((resetLoop env l st).langs p.2).working = (st.langs p.2).index) := by
  intro l
  induction l with
  | nil =>
      intro st
      refine ⟨rfl, rfl, rfl, ⟨[], by simp [resetLoop], by simp⟩, fun lang => ⟨rfl, rfl, rfl⟩,
        fun lang _ => rfl, fun _ p hmem => absurd hmem (List.not_mem_nil p)⟩
  | cons pr rest ih =>
      intro st
      obtain ⟨i, language⟩ := pr
      show (resetLoop env ((i, language) :: rest) st).english = st.english ∧ _
      rw [resetLoop]
      set stP := setProgress (1/10 + (1/10) * i / numLangs) st with hstP
      have hstPfields : stP.english = st.english ∧ stP.processed = st.processed ∧
          stP.clock = st.clock ∧ stP.langs = st.langs ∧
          stP.trace = st.trace ++ [Event.progressSet (1/10 + (1/10) * i / numLangs)] :=
        ⟨rfl, rfl, rfl, rfl, rfl⟩
      by_cases hf : env.resetFails language = true
      · rw [if_pos hf]
        obtain ⟨h1, h2, h3, h4, h5, h6, h7⟩ := ih stP
        refine ⟨h1, h2, h3, ?_, h5, ?_, fun hok p hmem => ?_⟩
        · obtain ⟨t, ht, hall⟩ := h4
          refine ⟨Event.progressSet (1/10 + (1/10) * i / numLangs) :: t, ?_, ?_⟩
          · rw [ht, hstPfields.2.2.2.2]
            simp
          · intro e he
            rcases List.mem_cons.mp he with he | he
            · subst he
              exact ⟨rfl, rfl⟩
            · exact hall e he
        · intro lang hmem
          rw [List.map_cons] at hmem
          exact h6 lang (fun h => hmem (List.mem_cons_of_mem _ h))
        · rw [hok language] at hf
          exact absurd hf (by simp)
      · have hf2 : env.resetFails language = false := by
          cases h : env.resetFails language
          · rfl
          · exact absurd h hf
        rw [if_neg (by simp [hf2])]
        set st₁ := recordEvent (.resetLang language)
          (updateLang stP language ((stP.langs language).resetToIndex)) with hst₁
        have hlangs₁ : ∀ lang, st₁.langs lang =
            if lang = language then (st.langs language).resetToIndex
            else st.langs lang := fun lang => rfl
        have htrace₁ : st₁.trace = st.trace ++
            [Event.progressSet (1/10 + (1/10) * i / numLangs), Event.resetLang language] := by
          simp [hst₁, recordEvent, updateLang, hstPfields.2.2.2.2]
        obtain ⟨h1, h2, h3, h4, h5, h6, h7⟩ := ih st₁
        refine ⟨h1, h2, h3, ?_, ?_, ?_, fun hok p hmem => ?_⟩
        · obtain ⟨t, ht, hall⟩ := h4
          refine ⟨Event.progressSet (1/10 + (1/10) * i / numLangs) ::
            Event.resetLang language :: t, ?_, ?_⟩
          · rw [ht, htrace₁]
            simp
          · intro e he
            rcases List.mem_cons.mp he with he | he
            · subst he
              exact ⟨rfl, rfl⟩
            · rcases List.mem_cons.mp he with he | he
              · subst he
                exact ⟨rfl, rfl⟩
              · exact hall e he
        · intro lang
          obtain ⟨hi, hh, hhist⟩ := h5 lang
          rw [hi, hh, hhist, hlangs₁ lang]
          by_cases hl : lang = language
          · subst hl
            simp [Workspace.resetToIndex_index, Workspace.resetToIndex_head,
              Workspace.resetToIndex_history]
          · simp [hl]
        · intro lang hmem
          have hne : lang ≠ language := by
            intro h
            exact hmem (by simp [h])
          have hnr : lang ∉ rest.map Prod.snd := by
            intro h
            exact hmem (by simp [h])
          rw [h6 lang hnr, hlangs₁ lang, if_neg hne]
        · by_cases hr : p ∈ rest
          · rw [h7 hok p hr, hlangs₁ p.2]
            by_cases hl : p.2 = language
            · rw [if_pos hl, Workspace.resetToIndex_index, hl]
            · rw [if_neg hl]
          · have hp : p = (i, language) := by
              rcases List.mem_cons.mp hmem with h | h
              · exact h
              · exact absurd h hr
            subst hp
            show ((resetLoop env rest st₁).langs language).working = (st.langs language).index
            by_cases hr2 : language ∈ rest.map Prod.snd
            · rcases List.mem_map.mp hr2 with ⟨q, hq, hq2⟩
              have h := h7 hok q hq
              rw [hq2] at h
              rw [h, hlangs₁ language, if_pos rfl, Workspace.resetToIndex_index]
            · rw [h6 language hr2, hlangs₁ language, if_pos rfl,
                Workspace.resetToIndex_working]

theorem genLoop_pres (env : RunEnv) (es : String) :
    ∀ (l : List (ℕ × String)) (st st' : PipeState),
    (genLoop env es l st = .finished st' ∨ genLoop env es l st = .cancelledInLoop st') →
    st'.english = st.english ∧
    (∃ t, st'.trace = st.trace ++ t ∧ ∀ e ∈ t, e.isStaging = false) ∧
    (∀ lang,
      (st'.langs lang).index = (st.langs lang).index ∧
      (st'.langs lang).head = (st.langs lang).head ∧
      (st'.langs lang).history = (st.langs lang).history) := by
  intro l
  induction l with
  | nil =>
      intro st st' h
      rcases h with h | h
      · rw [genLoop] at h
        cases h
        exact ⟨rfl, ⟨[], by simp, by simp⟩, fun lang => ⟨rfl, rfl, rfl⟩⟩
      · rw [genLoop] at h
        cases h
  | cons pr rest ih =>
      intro st st' h
      obtain ⟨i, language⟩ := pr
      rw [genLoop] at h
      simp only [consult] at h
      by_cases hc : isAborted env st.clock = true
      · rw [if_pos hc] at h
        have hst' : st' = revertAll env { st with clock := st.clock + 1 } := by
          rcases h with h | h
          · cases h
          · cases h
            rfl
        subst hst'
        obtain ⟨h1, _, _, h4, h5, _⟩ :=
          revertAll_spec env { st with clock := st.clock + 1 }
        refine ⟨h1, ?_, h5⟩
        obtain ⟨t, ht, hall⟩ := h4
        refine ⟨t, ht, fun e he => ?_⟩
        obtain ⟨lg, rfl⟩ := hall e he
        rfl
      · rw [if_neg hc] at h
        set stA := setProgress (1/4 + (11/20) * i / numLangs)
          { st with clock := st.clock + 1 } with hstA
        by_cases hc2 : isAborted env stA.clock = true
        · rw [if_pos hc2] at h
          have hst' : st' = revertAll env { stA with clock := stA.clock + 1 } := by
            rcases h with h | h
            · cases h
            · cases h
              rfl
          subst hst'
          obtain ⟨h1, _, _, h4, h5, _⟩ :=
            revertAll_spec env { stA with clock := stA.clock + 1 }
          refine ⟨h1, ?_, h5⟩
          obtain ⟨t, ht, hall⟩ := h4
          refine ⟨?_, ?_, ?_⟩
          · exact Event.progressSet (1/4 + (11/20) * i / numLangs) :: t
          · rw [ht]
            simp [hstA, setProgress]
          · intro e he
            rcases List.mem_cons.mp he with he | he
            · subst he
              rfl
            · obtain ⟨lg, rfl⟩ := hall e he
              rfl
        · rw [if_neg hc2] at h
          set result := algo language es
            (concatenateFiles (stA.langs language).working) (env.llm language) with hres
          set wsNew := { stA.langs language with
            working := (stA.langs language).working.writeAll result } with hws
          set st₂ := { recordEvent (.writeFiles language result)
              (updateLang { stA with clock := stA.clock + 1 } language wsNew) with
            processed := (recordEvent (.writeFiles language result)
              (updateLang { stA with clock := stA.clock + 1 } language wsNew)).processed
                ++ [language] } with hst₂
          obtain ⟨h1, h4, h5⟩ := ih st₂ st' h
          have hengl : st₂.english = st.english := rfl
          have htr : st₂.trace = st.trace ++
              [Event.progressSet (1/4 + (11/20) * i / numLangs),
               Event.writeFiles language result] := by
            simp [hst₂, recordEvent, updateLang, hstA, setProgress]
          have hlangs₂ : ∀ lang, st₂.langs lang =
              if lang = language then wsNew else st.langs lang := fun _ => rfl
          refine ⟨h1.trans hengl, ?_, ?_⟩
          · obtain ⟨t, ht, hall⟩ := h4
            refine ⟨Event.progressSet (1/4 + (11/20) * i / numLangs) ::
              Event.writeFiles language result :: t, ?_, ?_⟩
            · rw [ht, htr]
              simp
            · intro e he
              rcases List.mem_cons.mp he with he | he
              · subst he
                rfl
              · rcases List.mem_cons.mp he with he | he
                · subst he
                  rfl
                · exact hall e he
          · intro lang
            obtain ⟨hi, hh, hhist⟩ := h5 lang
            rw [hi, hh, hhist, hlangs₂ lang]
            by_cases hl : lang = language
            · subst hl
              rw [if_pos rfl]
              exact ⟨rfl, rfl, rfl⟩
            · simp [hl]

theorem cancelCatch_spec (env : RunEnv) (st : PipeState) :
    (cancelCatch env st).1 = .cancelled ∧
    (cancelCatch env st).2.english = st.english ∧
    (cancelCatch env st).2.processed = st.processed ∧
    (cancelCatch env st).2.progress = st.progress ∧
    (∃ t, (cancelCatch env st).2.trace = st.trace ++ t ∧
      ∀ e ∈ t, ∃ lg, e = Event.revertLang lg) ∧
    (∀ lang,
      ((cancelCatch env st).2.langs lang).index = (st.langs lang).index ∧
      ((cancelCatch env st).2.langs lang).head = (st.langs lang).head ∧
      ((cancelCatch env st).2.langs lang).history = (st.langs lang).history) ∧
    ((∀ lg, env.revertFails lg = false) →
      ∀ lang ∈ st.processed,
        ((cancelCatch env st).2.langs lang).working = (st.langs lang).index) := by
  obtain ⟨h1, h2, h3, h4, h5, h7⟩ :=
    revertAll_spec env { st with clock := st.clock + 1 }
  exact ⟨rfl, h1, h2, h3, h4, h5, h7⟩

/-- C3: if a run is cancelled (observed at any cancellation checkpoint,
in particular the ones inside the per-target loop), then — provided the
revert git calls themselves do not throw — every target processed so far
is restored to its pre-run baseline (working tree equal to the last staged
state, index, HEAD and history untouched) before the pipeline exits, and
the whole run performs no staging and no committing. -/
theorem C3_cancelled_reverts_processed (env : RunEnv)
    (e : Workspace) (L : String → Workspace)
    (hrev : ∀ lg, env.revertFails lg = false)
    (hc : (processUpdate env (initState e L)).1 = .cancelled) :
    (∀ lang ∈ (processUpdate env (initState e L)).2.processed,
      ((processUpdate env (initState e L)).2.langs lang).working = (L lang).index ∧
      ((processUpdate env (initState e L)).2.langs lang).index = (L lang).index ∧
      ((processUpdate env (initState e L)).2.langs lang).head = (L lang).head ∧
      ((processUpdate env (initState e L)).2.langs lang).history = (L lang).history) ∧
    (∀ ev ∈ (processUpdate env (initState e L)).2.trace, ev.isStaging = false) := by
  set st₀ := initState e L with hst₀
  have htr₀ : ∀ ev ∈ st₀.trace, Event.isStaging ev = false := by
    intro ev hev
    rcases List.mem_singleton.mp hev with rfl
    rfl
  by_cases hc0 : isAborted env st₀.clock = true
  · have heq : processUpdate env st₀ =
        cancelCatch env { st₀ with clock := st₀.clock + 1 } := by
      unfold processUpdate
      simp only [consult]
      rw [if_pos hc0]
    obtain ⟨_, _, hP, _, hT, _, _⟩ :=
      cancelCatch_spec env { st₀ with clock := st₀.clock + 1 }
    rw [heq]
    constructor
    · intro lang hmem
      rw [hP] at hmem
      exact absurd hmem (List.not_mem_nil _)
    · obtain ⟨t, ht, hall⟩ := hT
      intro ev hev
      rw [ht] at hev
      rcases List.mem_append.mp hev with hev | hev
      · exact htr₀ ev hev
      · obtain ⟨lg, rfl⟩ := hall ev hev
        rfl
  · set s2 := setProgress (1/10) (setProgress (1/20) { st₀ with clock := st₀.clock + 1 })
      with hs2
    set sR := resetLoop env LANGUAGES.enum s2 with hsR
    obtain ⟨hRe, hRp, hRc, hRt, hRl, _, _⟩ := resetLoop_spec env LANGUAGES.enum s2
    have hRtrace : ∀ ev ∈ sR.trace, Event.isStaging ev = false := by
      obtain ⟨t, ht, hall⟩ := hRt
      intro ev hev
      rw [ht] at hev
      rcases List.mem_append.mp hev with hev | hev
      · rcases List.mem_append.mp hev with hev | hev
        · rcases List.mem_append.mp hev with hev | hev
          · exact htr₀ ev hev
          · rcases List.mem_singleton.mp hev with rfl
            rfl
        · rcases List.mem_singleton.mp hev with rfl
          rfl
      · exact (hall ev hev).1
    by_cases hc1 : isAborted env sR.clock = true
    · have heq : processUpdate env st₀ =
          cancelCatch env { sR with clock := sR.clock + 1 } := by
        unfold processUpdate
        simp only [consult]
        rw [if_neg hc0, ← hs2, ← hsR, if_pos hc1]
      obtain ⟨_, _, hP, _, hT, _, _⟩ :=
        cancelCatch_spec env { sR with clock := sR.clock + 1 }
      rw [heq]
      constructor
      · intro lang hmem
        rw [hP] at hmem
        have hmem2 : lang ∈ s2.processed := hRp ▸ hmem
        exact absurd hmem2 (List.not_mem_nil _)
      · obtain ⟨t, ht, hall⟩ := hT
        intro ev hev
        rw [ht] at hev
        rcases List.mem_append.mp hev with hev | hev
        · exact hRtrace ev hev
        · obtain ⟨lg, rfl⟩ := hall ev hev
          rfl
    · set s3 := setProgress (1/5) { sR with clock := sR.clock + 1 } with hs3
      set esStr := concatenateFiles s3.english.working with hesStr
      cases hg : genLoop env esStr LANGUAGES.enum s3 with
      | finished stf =>
          have heq : ∃ pr stFin, processUpdate env st₀ = (.success pr, stFin) := by
            unfold processUpdate
            simp only [consult]
            rw [if_neg hc0, ← hs2, ← hsR, if_neg hc1, ← hs3, ← hesStr, hg]
            exact ⟨_, _, rfl⟩
          obtain ⟨pr, stFin, heq⟩ := heq
          rw [heq] at hc
          exact absurd hc (by simp)
      | cancelledInLoop stc =>
          have heq : processUpdate env st₀ = cancelCatch env stc := by
            unfold processUpdate
            simp only [consult]
            rw [if_neg hc0, ← hs2, ← hsR, if_neg hc1, ← hs3, ← hesStr, hg]
          obtain ⟨_, _, hP, _, hT, hIHH, hW⟩ := cancelCatch_spec env stc
          obtain ⟨hE, hTg, hG⟩ :=
            genLoop_pres env esStr LANGUAGES.enum s3 stc (Or.inr hg)
          rw [heq]
          constructor
          · intro lang hmem
            rw [hP] at hmem
            have hidx : (stc.langs lang).index = (L lang).index := by
              rw [(hG lang).1]
              exact (hRl lang).1
            refine ⟨?_, ?_, ?_, ?_⟩
            · rw [hW hrev lang hmem, hidx]
            · rw [(hIHH lang).1, hidx]
            · rw [(hIHH lang).2.1, (hG lang).2.1]
              exact (hRl lang).2.1
            · rw [(hIHH lang).2.2, (hG lang).2.2]
              exact (hRl lang).2.2
          · obtain ⟨t, ht, hall⟩ := hT
            obtain ⟨tg, htg, hallg⟩ := hTg
            intro ev hev
            rw [ht, htg] at hev
            rcases List.mem_append.mp hev with hev | hev
            · rcases List.mem_append.mp hev with hev | hev
              · rw [hs3] at hev
                rcases List.mem_append.mp hev with hev | hev
                · exact hRtrace ev hev
                · rcases List.mem_singleton.mp hev with rfl
                  rfl
              · exact hallg ev hev
            · obtain ⟨lg, rfl⟩ := hall ev hev
              rfl

theorem isAborted_none {env : RunEnv} (h : env.abortFrom = none) (c : ℕ) :
    isAborted env c = false := by
  simp [isAborted, h]

theorem genLoop_noAbort (env : RunEnv) (es : String) (h : env.abortFrom = none) :
    ∀ (l : List (ℕ × String)) (st : PipeState),
    ∃ st', genLoop env es l st = .finished st' ∧
    st'.english = st.english ∧
    st'.processed = st.processed ++ l.map Prod.snd ∧
    (∃ t, st'.trace = st.trace ++ t ∧
      ∀ e ∈ t, e.isStaging = false ∧ e.isRevert = false) ∧
    (∀ lang,
      (st'.langs lang).index = (st.langs lang).index ∧
      (st'.langs lang).head = (st.langs lang).head ∧
      (st'.langs lang).history = (st.langs lang).history) ∧
    (∀ lang, lang ∉ l.map Prod.snd → st'.langs lang = st.langs lang) ∧
    ((l.map Prod.snd).Nodup →
      ∀ p ∈ l, (st'.langs p.2).working =
        ((st.langs p.2).working).writeAll
          (algo p.2 es (concatenateFiles (st.langs p.2).working) (env.llm p.2))) := by
  intro l
  induction l with
  | nil =>
      intro st
      refine ⟨st, by rw [genLoop], rfl, by simp, ⟨[], by simp, by simp⟩,
        fun lang => ⟨rfl, rfl, rfl⟩, fun lang _ => rfl,
        fun _ p hmem => absurd hmem (List.not_mem_nil p)⟩
  | cons pr rest ih =>
      intro st
      obtain ⟨i, language⟩ := pr
      set stA := setProgress (1/4 + (11/20) * i / numLangs)
        { st with clock := st.clock + 1 } with hstA
      set result := algo language es
        (concatenateFiles (stA.langs language).working) (env.llm language) with hres
      set wsNew := { stA.langs language with
        working := (stA.langs language).working.writeAll result } with hws
      set st₂ := { recordEvent (.writeFiles language result)
          (updateLang { stA with clock := stA.clock + 1 } language wsNew) with
        processed := (recordEvent (.writeFiles language result)
          (updateLang { stA with clock := stA.clock + 1 } language wsNew)).processed
            ++ [language] } with hst₂
      have heq : genLoop env es ((i, language) :: rest) st = genLoop env es rest st₂ := by
        rw [genLoop]
        simp only [consult]
        rw [if_neg (by rw [isAborted_none h]; simp), ← hstA,
          if_neg (by rw [isAborted_none h]; simp), ← hres, ← hws, ← hst₂]
      have hlangs₂ : ∀ lang, st₂.langs lang =
          if lang = language then wsNew else st.langs lang := fun _ => rfl
      have hproc₂ : st₂.processed = st.processed ++ [language] := rfl
      have htr₂ : st₂.trace = st.trace ++
          [Event.progressSet (1/4 + (11/20) * i / numLangs),
           Event.writeFiles language result] := by
        simp [hst₂, recordEvent, updateLang, hstA, setProgress]
      obtain ⟨st', hgl, hE, hPr, hT, hIHH, hUn, hWork⟩ := ih st₂
      refine ⟨st', heq.trans hgl, hE.trans rfl, ?_, ?_, ?_, ?_, ?_⟩
      · rw [hPr, hproc₂, List.map_cons, List.append_assoc]
        rfl
      · obtain ⟨t, ht, hall⟩ := hT
        refine ⟨Event.progressSet (1/4 + (11/20) * i / numLangs) ::
          Event.writeFiles language result :: t, ?_, ?_⟩
        · rw [ht, htr₂]
          simp
        · intro e he
          rcases List.mem_cons.mp he with he | he
          · subst he
            exact ⟨rfl, rfl⟩
          · rcases List.mem_cons.mp he with he | he
            · subst he
              exact ⟨rfl, rfl⟩
            · exact hall e he
      · intro lang
        obtain ⟨hi, hh, hhist⟩ := hIHH lang
        rw [hi, hh, hhist, hlangs₂ lang]
        by_cases hl : lang = language
        · subst hl
          rw [if_pos rfl]
          exact ⟨rfl, rfl, rfl⟩
        · rw [if_neg hl]
          exact ⟨rfl, rfl, rfl⟩
      · intro lang hmem
        rw [List.map_cons] at hmem
        have hne : lang ≠ language := fun hcontra => hmem (hcontra ▸ List.mem_cons_self _ _)
        have hnr : lang ∉ rest.map Prod.snd := fun hcontra =>
          hmem (List.mem_cons_of_mem _ hcontra)
        rw [hUn lang hnr, hlangs₂ lang, if_neg hne]
      · intro hnd p hmem
        rw [List.map_cons] at hnd
        have hnotin : language ∉ rest.map Prod.snd := (List.nodup_cons.mp hnd).1
        have hndrest : (rest.map Prod.snd).Nodup := (List.nodup_cons.mp hnd).2
        rcases List.mem_cons.mp hmem with hp | hp
        · subst hp
          show (st'.langs language).working = _
          rw [hUn language hnotin, hlangs₂ language, if_pos rfl]
          rfl
        · have hp2 : p.2 ≠ language := by
            intro hcontra
            exact hnotin (hcontra ▸ List.mem_map_of_mem Prod.snd hp)
          have := hWork hndrest p hp
          rw [hlangs₂ p.2, if_neg hp2] at this
          exact this

theorem stageLoop_spec (env : RunEnv) : ∀ (l : List (ℕ × String)) (st : PipeState),
    (stageLoop env l st).english = st.english ∧
    (stageLoop env l st).processed = st.processed ∧
    (∃ t, (stageLoop env l st).trace = st.trace ++ t ∧
      ∀ e ∈ t, e.isRevert = false) ∧
    (∀ lang,
      ((stageLoop env l st).langs lang).working = (st.langs lang).working ∧
      ((stageLoop env l st).langs lang).head = (st.langs lang).head ∧
      ((stageLoop env l st).langs lang).history = (st.langs lang).history) ∧
    (∀ lang, lang ∉ l.map Prod.snd → (stageLoop env l st).langs lang = st.langs lang) ∧
    ((∀ lg, env.stageLangFails lg = false) →
      ∀ p ∈ l, ((stageLoop env l st).langs p.2).index = (st.langs p.2).working) := by
  intro l
  induction l with
  | nil =>
      intro st
      refine ⟨rfl, rfl, ⟨[], by simp [stageLoop], by simp⟩, fun lang => ⟨rfl, rfl, rfl⟩,
        fun lang _ => rfl, fun _ p hmem => absurd hmem (List.not_mem_nil p)⟩
  | cons pr rest ih =>
      intro st
      obtain ⟨i, language⟩ := pr
      show (stageLoop env ((i, language) :: rest) st).english = st.english ∧ _
      rw [stageLoop]
      set stP := setProgress (17/20 + (1/10) * i / numLangs) st with hstP
      by_cases hf : env.stageLangFails language = true
      · rw [if_pos hf]
        obtain ⟨h1, h2, h4, h5, h6, h7⟩ := ih stP
        refine ⟨h1, h2, ?_, h5, ?_, fun hok p hmem => ?_⟩
        · obtain ⟨t, ht, hall⟩ := h4
          refine ⟨Event.progressSet (17/20 + (1/10) * i / numLangs) :: t, ?_, ?_⟩
          · rw [ht]
            simp [hstP, setProgress]
          · intro e he
            rcases List.mem_cons.mp he with he | he
            · subst he
              rfl
            · exact hall e he
        · intro lang hmem
          rw [List.map_cons] at hmem
          exact h6 lang (fun hcontra => hmem (List.mem_cons_of_mem _ hcontra))
        · rw [hok language] at hf
          exact absurd hf (by simp)
      · have hf2 : env.stageLangFails language = false := by
          cases hx : env.stageLangFails language
          · rfl
          · exact absurd hx hf
        rw [if_neg (by simp [hf2])]
        set st₁ := recordEvent (.stageLang language)
          (updateLang stP language ((stP.langs language).addAll)) with hst₁
        have hlangs₁ : ∀ lang, st₁.langs lang =
            if lang = language then (st.langs language).addAll
            else st.langs lang := fun lang => rfl
        have htrace₁ : st₁.trace = st.trace ++
            [Event.progressSet (17/20 + (1/10) * i / numLangs),
             Event.stageLang language] := by
          simp [hst₁, recordEvent, updateLang, hstP, setProgress]
        obtain ⟨h1, h2, h4, h5, h6, h7⟩ := ih st₁
        refine ⟨h1, h2, ?_, ?_, ?_, fun hok p hmem => ?_⟩
        · obtain ⟨t, ht, hall⟩ := h4
          refine ⟨Event.progressSet (17/20 + (1/10) * i / numLangs) ::
            Event.stageLang language :: t, ?_, ?_⟩
          · rw [ht, htrace₁]
            simp
          · intro e he
            rcases List.mem_cons.mp he with he | he
            · subst he
              rfl
            · rcases List.mem_cons.mp he with he | he
              · subst he
                rfl
              · exact hall e he
        · intro lang
          obtain ⟨hw, hh, hhist⟩ := h5 lang
          rw [hw, hh, hhist, hlangs₁ lang]
          by_cases hl : lang = language
          · subst hl
            rw [if_pos rfl]
            exact ⟨rfl, rfl, rfl⟩
          · rw [if_neg hl]
            exact ⟨rfl, rfl, rfl⟩
        · intro lang hmem
          rw [List.map_cons] at hmem
          have hne : lang ≠ language := fun hcontra =>
            hmem (hcontra ▸ List.mem_cons_self _ _)
          have hnr : lang ∉ rest.map Prod.snd := fun hcontra =>
            hmem (List.mem_cons_of_mem _ hcontra)
          rw [h6 lang hnr, hlangs₁ lang, if_neg hne]
        · by_cases hr : p ∈ rest
          · have := h7 hok p hr
            rw [hlangs₁ p.2] at this
            by_cases hl : p.2 = language
            · rw [this, if_pos hl, hl]
              rfl
            · rw [this, if_neg hl]
          · have hp : p = (i, language) := by
              rcases List.mem_cons.mp hmem with hx | hx
              · exact hx
              · exact absurd hx hr
            subst hp
            show ((stageLoop env rest st₁).langs language).index = (st.langs language).working
            by_cases hr2 : language ∈ rest.map Prod.snd
            · rcases List.mem_map.mp hr2 with ⟨q, hq, hq2⟩
              have hx := h7 hok q hq
              rw [hq2] at hx
              rw [hx, hlangs₁ language, if_pos rfl]
              rfl
            · rw [h6 language hr2, hlangs₁ language, if_pos rfl]
              rfl

theorem traceExt_trans {P : Event → Prop} {tr₁ tr₂ tr₃ : List Event}
    (h1 : ∃ t, tr₂ = tr₁ ++ t ∧ ∀ e ∈ t, P e)
    (h2 : ∃ t, tr₃ = tr₂ ++ t ∧ ∀ e ∈ t, P e) :
    ∃ t, tr₃ = tr₁ ++ t ∧ ∀ e ∈ t, P e := by
  obtain ⟨t₁, ht₁, hall₁⟩ := h1
  obtain ⟨t₂, ht₂, hall₂⟩ := h2
  refine ⟨t₁ ++ t₂, by rw [ht₂, ht₁, List.append_assoc], ?_⟩
  intro e he
  rcases List.mem_append.mp he with he | he
  · exact hall₁ e he
  · exact hall₂ e he

/-- The english auto-commit tail of the staging phase does not touch
`processedLanguages` nor any language workspace, and appends at most one
(non-revert) commit event. -/
theorem commitTail_pres (env : RunEnv) (stX : PipeState) :
    (if env.diffEnglishFails then stX
     else if stX.english.hasStagedChanges then
       if env.commitEnglishFails then stX
       else recordEvent (.commitEnglish englishCommitMsg)
         { stX with english := stX.english.commit englishCommitMsg }
     else stX).processed = stX.processed ∧
    (∃ t, (if env.diffEnglishFails then stX
     else if stX.english.hasStagedChanges then
       if env.commitEnglishFails then stX
       else recordEvent (.commitEnglish englishCommitMsg)
         { stX with english := stX.english.commit englishCommitMsg }
     else stX).trace = stX.trace ++ t ∧ ∀ e ∈ t, e.isRevert = false) ∧
    (∀ lang, (if env.diffEnglishFails then stX
     else if stX.english.hasStagedChanges then
       if env.commitEnglishFails then stX
       else recordEvent (.commitEnglish englishCommitMsg)
         { stX with english := stX.english.commit englishCommitMsg }
     else stX).langs lang = stX.langs lang) := by
  by_cases hd : env.diffEnglishFails = true
  · rw [if_pos hd]
    exact ⟨rfl, ⟨[], by simp, by simp⟩, fun lang => rfl⟩
  · rw [if_neg hd]
    by_cases hs : stX.english.hasStagedChanges = true
    · rw [if_pos hs]
      by_cases hcf : env.commitEnglishFails = true
      · rw [if_pos hcf]
        exact ⟨rfl, ⟨[], by simp, by simp⟩, fun lang => rfl⟩
      · rw [if_neg hcf]
        refine ⟨rfl, ⟨[Event.commitEnglish englishCommitMsg], by simp [recordEvent], ?_⟩,
          fun lang => rfl⟩
        intro e he
        rcases List.mem_singleton.mp he with rfl
        rfl
    · rw [if_neg hs]
      exact ⟨rfl, ⟨[], by simp, by simp⟩, fun lang => rfl⟩

theorem stagingPhase_pres (env : RunEnv) (st : PipeState) :
    (stagingPhase env st).processed = st.processed ∧
    (∃ t, (stagingPhase env st).trace = st.trace ++ t ∧ ∀ e ∈ t, e.isRevert = false) ∧
    (∀ lang,
      ((stagingPhase env st).langs lang).working = (st.langs lang).working ∧
      ((stagingPhase env st).langs lang).head = (st.langs lang).head ∧
      ((stagingPhase env st).langs lang).history = (st.langs lang).history) := by
  unfold stagingPhase
  set s2 := setProgress (17/20) (setProgress (4/5) st) with hs2
  set s3 := if env.stageEnglishFails then s2
    else recordEvent .stageEnglish { s2 with english := s2.english.addAll } with hs3
  set s4 := stageLoop env LANGUAGES.enum s3 with hs4
  set s5 := setProgress (19/20) s4 with hs5
  have hs3fields : s3.processed = st.processed ∧ s3.langs = st.langs ∧
      (∃ t, s3.trace = st.trace ++ t ∧ ∀ e ∈ t, Event.isRevert e = false) := by
    rw [hs3]
    by_cases hse : env.stageEnglishFails = true
    · rw [if_pos hse]
      refine ⟨rfl, rfl, ⟨[Event.progressSet (4/5), Event.progressSet (17/20)],
        by simp [hs2, setProgress], ?_⟩⟩
      intro e he
      rcases List.mem_cons.mp he with rfl | he
      · rfl
      · rcases List.mem_singleton.mp he with rfl
        rfl
    · rw [if_neg hse]
      refine ⟨rfl, rfl, ⟨[Event.progressSet (4/5), Event.progressSet (17/20),
        Event.stageEnglish], by simp [recordEvent, hs2, setProgress], ?_⟩⟩
      intro e he
      rcases List.mem_cons.mp he with rfl | he
      · rfl
      · rcases List.mem_cons.mp he with rfl | he
        · rfl
        · rcases List.mem_singleton.mp he with rfl
          rfl
  obtain ⟨hL1, hL2, hL3, hL4, _, _⟩ := stageLoop_spec env LANGUAGES.enum s3
  obtain ⟨hT1, hT2, hT3⟩ := commitTail_pres env s5
  refine ⟨?_, ?_, ?_⟩
  · rw [hT1, hs5]
    show s4.processed = st.processed
    rw [hL2]
    exact hs3fields.1
  · refine traceExt_trans ?_ hT2
    refine traceExt_trans ?_
      (⟨[Event.progressSet (19/20)], by simp [hs5, setProgress], by
        intro e he
        rcases List.mem_singleton.mp he with rfl
        rfl⟩ : ∃ t, s5.trace = (stageLoop env LANGUAGES.enum s3).trace ++ t ∧
          ∀ e ∈ t, e.isRevert = false)
    exact traceExt_trans hs3fields.2.2 hL3
  · intro lang
    rw [hT3 lang, hs5]
    show (s4.langs lang).working = _ ∧ (s4.langs lang).head = _ ∧
      (s4.langs lang).history = _
    obtain ⟨hw, hh, hhist⟩ := hL4 lang
    rw [hw, hh, hhist, hs3fields.2.1]
    exact ⟨rfl, rfl, rfl⟩

/-- When no git call throws: the staging phase stages the english working
tree and every language working tree, and auto-commits the english
workspace exactly when its working tree differs from its HEAD. -/
theorem stagingPhase_gitOk (env : RunEnv) (st : PipeState) (hok : env.gitOk) :
    (stagingPhase env st).english.working = st.english.working ∧
    (stagingPhase env st).english.index = st.english.working ∧
    (FileMap.beqv st.english.working st.english.head = false →
      (stagingPhase env st).english.head = st.english.working ∧
      (stagingPhase env st).english.history =
        (englishCommitMsg, st.english.working) :: st.english.history) ∧
    (FileMap.beqv st.english.working st.english.head = true →
      (stagingPhase env st).english.head = st.english.head ∧
      (stagingPhase env st).english.history = st.english.history) ∧
    (∀ p ∈ LANGUAGES.enum,
      ((stagingPhase env st).langs p.2).index = (st.langs p.2).working) := by
  obtain ⟨hrf, hvf, hse, hsl, hdf, hcf⟩ := hok
  have hse2 : ¬(env.stageEnglishFails = true) := by simp [hse]
  have hdf2 : ¬(env.diffEnglishFails = true) := by simp [hdf]
  have hcf2 : ¬(env.commitEnglishFails = true) := by simp [hcf]
  simp only [stagingPhase]
  rw [if_neg hse2, if_neg hdf2]
  set s2 := setProgress (17/20) (setProgress (4/5) st) with hs2
  set s3 := recordEvent .stageEnglish { s2 with english := s2.english.addAll } with hs3
  set s4 := stageLoop env LANGUAGES.enum s3 with hs4
  set s5 := setProgress (19/20) s4 with hs5
  obtain ⟨hL1, hL2, hL3, hL4, hL5, hL6⟩ := stageLoop_spec env LANGUAGES.enum s3
  have hengl : s5.english = st.english.addAll := by
    rw [hs5]
    show s4.english = st.english.addAll
    rw [hL1]
    rfl
  have hstaged : s5.english.hasStagedChanges =
      !(FileMap.beqv st.english.working st.english.head) := by
    rw [hengl]
    rfl
  have hlangsIdx : ∀ p ∈ LANGUAGES.enum,
      (s5.langs p.2).index = (st.langs p.2).working := by
    intro p hp
    have := hL6 hsl p hp
    rw [hs5]
    show (s4.langs p.2).index = _
    rw [this]
    rfl
  by_cases hb : FileMap.beqv st.english.working st.english.head = true
  · have hns : ¬(s5.english.hasStagedChanges = true) := by
      rw [hstaged, hb]
      simp
    rw [if_neg hns]
    refine ⟨?_, ?_, ?_, ?_, hlangsIdx⟩
    · rw [hengl]
      rfl
    · rw [hengl]
      rfl
    · intro hcontra
      rw [hcontra] at hb
      exact absurd hb (by simp)
    · intro _
      rw [hengl]
      exact ⟨rfl, rfl⟩
  · have hb2 : FileMap.beqv st.english.working st.english.head = false := by
      cases hx : FileMap.beqv st.english.working st.english.head
      · rfl
      · exact absurd hx hb
    have hys : s5.english.hasStagedChanges = true := by
      rw [hstaged, hb2]
      rfl
    rw [if_pos hys, if_neg hcf2]
    refine ⟨?_, ?_, ?_, ?_, ?_⟩
    · show s5.english.working = st.english.working
      rw [hengl]
      rfl
    · show (s5.english.commit englishCommitMsg).index = st.english.working
      rw [hengl]
      rfl
    · intro _
      constructor
      · show (s5.english.commit englishCommitMsg).head = st.english.working
        rw [hengl]
        rfl
      · show (s5.english.commit englishCommitMsg).history = _
        rw [hengl]
        rfl
    · intro hcontra
      rw [hcontra] at hb2
      exact absurd hb2 (by simp)
    · intro p hp
      show ((recordEvent (Event.commitEnglish englishCommitMsg)
        { s5 with english := s5.english.commit englishCommitMsg }).langs p.2).index =
        (st.langs p.2).working
      exact hlangsIdx p hp

/-- When the cancellation signal never fires, the pipeline runs the reset
loop, the generation loop, the staging phase and the terminal progress
write in sequence. -/
theorem processUpdate_noAbort_eq (env : RunEnv) (h : env.abortFrom = none)
    (st₀ : PipeState) :
    processUpdate env st₀ =
      (match genLoop env (englishStringOf env st₀) LANGUAGES.enum
          (stateBeforeGen env st₀) with
       | .cancelledInLoop stc => cancelCatch env stc
       | .finished stG =>
           let s6 := stagingPhase env { stG with clock := stG.clock + 1 }
           let stF := setProgress 1 s6
           (.success stF.processed, stF)) := by
  unfold processUpdate englishStringOf stateBeforeGen stateAfterReset
  simp only [consult, isAborted_none h, Bool.false_eq_true, if_false]

theorem stateBeforeGen_spec (env : RunEnv) (e : Workspace) (L : String → Workspace) :
    (stateBeforeGen env (initState e L)).english = e ∧
    (stateBeforeGen env (initState e L)).processed = [] ∧
    (∀ lang,
      ((stateBeforeGen env (initState e L)).langs lang).index = (L lang).index ∧
      ((stateBeforeGen env (initState e L)).langs lang).head = (L lang).head ∧
      ((stateBeforeGen env (initState e L)).langs lang).history = (L lang).history) ∧
    (∀ ev ∈ (stateBeforeGen env (initState e L)).trace,
      ev.isStaging = false ∧ ev.isRevert = false) ∧
    ((∀ lg, env.resetFails lg = false) →
      ∀ p ∈ LANGUAGES.enum,
        ((stateBeforeGen env (initState e L)).langs p.2).working = (L p.2).index) := by
  obtain ⟨hRe, hRp, hRc, hRt, hRl, hRun, hRw⟩ := resetLoop_spec env LANGUAGES.enum
    (setProgress (1/10) (setProgress (1/20)
      { initState e L with clock := (initState e L).clock + 1 }))
  refine ⟨?_, ?_, ?_, ?_, ?_⟩
  · show (stateAfterReset env (initState e L)).english = e
    unfold stateAfterReset
    rw [hRe]
    rfl
  · show (stateAfterReset env (initState e L)).processed = []
    unfold stateAfterReset
    rw [hRp]
    rfl
  · intro lang
    have h5 := hRl lang
    exact ⟨h5.1, h5.2.1, h5.2.2⟩
  · intro ev hev
    have htr : (stateBeforeGen env (initState e L)).trace =
        (stateAfterReset env (initState e L)).trace ++ [Event.progressSet (1/5)] := rfl
    rw [htr] at hev
    rcases List.mem_append.mp hev with hev | hev
    · obtain ⟨t, ht, hall⟩ := hRt
      have : (stateAfterReset env (initState e L)).trace =
          (Event.progressSet 0 ::
            [Event.progressSet (1/20), Event.progressSet (1/10)]) ++ t := by
        show (resetLoop env LANGUAGES.enum _).trace = _
        rw [ht]
        rfl
      rw [this] at hev
      rcases List.mem_append.mp hev with hev | hev
      · rcases List.mem_cons.mp hev with rfl | hev
        · exact ⟨rfl, rfl⟩
        · rcases List.mem_cons.mp hev with rfl | hev
          · exact ⟨rfl, rfl⟩
          · rcases List.mem_singleton.mp hev with rfl
            exact ⟨rfl, rfl⟩
      · exact hall ev hev
    · rcases List.mem_singleton.mp hev with rfl
      exact ⟨rfl, rfl⟩
  · intro hok p hp
    exact hRw hok p hp

/-- A run that is never cancelled terminates successfully: it processes
every language (also the ones whose generation call failed, since `algo`
converts failures into fallback error files that are then written), never
reverts anything, leaves every target's HEAD and history untouched, and
each target's final working tree is its post-reset tree overwritten with
the files `algo` returned for it. -/
theorem processUpdate_noAbort_spec (env : RunEnv) (h : env.abortFrom = none)
    (e : Workspace) (L : String → Workspace) :
    (processUpdate env (initState e L)).1 =
      .success (processUpdate env (initState e L)).2.processed ∧
    (processUpdate env (initState e L)).2.processed = LANGUAGES ∧
    (∀ ev ∈ (processUpdate env (initState e L)).2.trace, ev.isRevert = false) ∧
    (∀ lang,
      ((processUpdate env (initState e L)).2.langs lang).head = (L lang).head ∧
      ((processUpdate env (initState e L)).2.langs lang).history = (L lang).history) ∧
    (∀ p ∈ LANGUAGES.enum, ∃ base : FileMap,
      ((processUpdate env (initState e L)).2.langs p.2).working =
        base.writeAll (algo p.2 (concatenateFiles e.working)
          (concatenateFiles base) (env.llm p.2))) := by
  obtain ⟨hBe, hBp, hBihh, hBt, hBw⟩ := stateBeforeGen_spec env e L
  obtain ⟨stG, hgl, hGe, hGp, hGt, hGihh, hGun, hGw⟩ :=
    genLoop_noAbort env (englishStringOf env (initState e L)) h LANGUAGES.enum
      (stateBeforeGen env (initState e L))
  set s6 := stagingPhase env { stG with clock := stG.clock + 1 } with hs6
  have heq : processUpdate env (initState e L) =
      (.success (setProgress 1 s6).processed, setProgress 1 s6) := by
    rw [processUpdate_noAbort_eq env h, hgl]
  obtain ⟨hS1, hS2, hS3⟩ := stagingPhase_pres env { stG with clock := stG.clock + 1 }
  have hesStr : englishStringOf env (initState e L) = concatenateFiles e.working := by
    unfold englishStringOf
    rw [hBe]
  have hproc : (setProgress 1 s6).processed = LANGUAGES := by
    show s6.processed = LANGUAGES
    rw [hS1]
    show stG.processed = LANGUAGES
    rw [hGp, hBp, List.nil_append, List.enum_map_snd]
  rw [heq]
  refine ⟨rfl, hproc, ?_, ?_, ?_⟩
  · intro ev hev
    have htr : (setProgress 1 s6).trace = s6.trace ++ [Event.progressSet 1] := rfl
    rw [htr] at hev
    rcases List.mem_append.mp hev with hev | hev
    · obtain ⟨tS, htS, hallS⟩ := hS2
      rw [htS] at hev
      rcases List.mem_append.mp hev with hev | hev
      · obtain ⟨tG, htG, hallG⟩ := hGt
        have : stG.trace = (stateBeforeGen env (initState e L)).trace ++ tG := htG
        rw [show ({ stG with clock := stG.clock + 1 } : PipeState).trace
          = stG.trace from rfl, this] at hev
        rcases List.mem_append.mp hev with hev | hev
        · exact (hBt ev hev).2
        · exact (hallG ev hev).2
      · exact hallS ev hev
    · rcases List.mem_singleton.mp hev with rfl
      rfl
  · intro lang
    have h3 := hS3 lang
    have hG := hGihh lang
    have hB := hBihh lang
    constructor
    · show (s6.langs lang).head = (L lang).head
      rw [h3.2.1]
      show (stG.langs lang).head = (L lang).head
      rw [hG.2.1, hB.2.1]
    · show (s6.langs lang).history = (L lang).history
      rw [h3.2.2]
      show (stG.langs lang).history = (L lang).history
      rw [hG.2.2, hB.2.2]
  · intro p hp
    refine ⟨((stateBeforeGen env (initState e L)).langs p.2).working, ?_⟩
    have hnd : (LANGUAGES.enum.map Prod.snd).Nodup := by
      rw [List.enum_map_snd]
      decide
    have hw := hGw hnd p hp
    show (s6.langs p.2).working = _
    rw [(hS3 p.2).1]
    show (stG.langs p.2).working = _
    rw [hw, hesStr]

/-- A run that is never cancelled and whose git calls all succeed: the
english workspace keeps its working tree, stages it, and auto-commits it
exactly when it differed from HEAD; every target workspace ends fully
staged, its working tree being the post-reset baseline overwritten with
`algo`'s output. -/
theorem processUpdate_noAbort_gitOk (env : RunEnv) (h : env.abortFrom = none)
    (hok : env.gitOk) (e : Workspace) (L : String → Workspace) :
    (processUpdate env (initState e L)).2.english.working = e.working ∧
    (processUpdate env (initState e L)).2.english.index = e.working ∧
    (FileMap.beqv e.working e.head = false →
      (processUpdate env (initState e L)).2.english.head = e.working ∧
      (processUpdate env (initState e L)).2.english.history =
        (englishCommitMsg, e.working) :: e.history) ∧
    (FileMap.beqv e.working e.head = true →
      (processUpdate env (initState e L)).2.english.head = e.head ∧
      (processUpdate env (initState e L)).2.english.history = e.history) ∧
    (∀ lang ∈ LANGUAGES,
      ((processUpdate env (initState e L)).2.langs lang).index =
        ((processUpdate env (initState e L)).2.langs lang).working) ∧
    (∀ lang ∈ LANGUAGES,
      ((processUpdate env (initState e L)).2.langs lang).working =
        ((L lang).index).writeAll (algo lang (concatenateFiles e.working)
          (concatenateFiles (L lang).index) (env.llm lang))) := by
  obtain ⟨hBe, hBp, hBihh, hBt, hBw⟩ := stateBeforeGen_spec env e L
  obtain ⟨stG, hgl, hGe, hGp, hGt, hGihh, hGun, hGw⟩ :=
    genLoop_noAbort env (englishStringOf env (initState e L)) h LANGUAGES.enum
      (stateBeforeGen env (initState e L))
  set sIn := ({ stG with clock := stG.clock + 1 } : PipeState) with hsIn
  set s6 := stagingPhase env sIn with hs6
  have heq : processUpdate env (initState e L) =
      (.success (setProgress 1 s6).processed, setProgress 1 s6) := by
    rw [processUpdate_noAbort_eq env h, hgl]
  have hesStr : englishStringOf env (initState e L) = concatenateFiles e.working := by
    unfold englishStringOf
    rw [hBe]
  have hInEng : sIn.english = e := by
    show stG.english = e
    rw [hGe, hBe]
  obtain ⟨hE1, hE2, hE3, hE4, hE5⟩ := stagingPhase_gitOk env sIn hok
  rw [hInEng] at hE1 hE2 hE3 hE4
  have hworking : ∀ p ∈ LANGUAGES.enum,
      (s6.langs p.2).working =
        ((L p.2).index).writeAll (algo p.2 (concatenateFiles e.working)
          (concatenateFiles (L p.2).index) (env.llm p.2)) := by
    intro p hp
    have hnd : (LANGUAGES.enum.map Prod.snd).Nodup := by
      rw [List.enum_map_snd]
      decide
    have hw := hGw hnd p hp
    have hbase : ((stateBeforeGen env (initState e L)).langs p.2).working =
        (L p.2).index := hBw hok.1 p hp
    obtain ⟨hS1, hS2, hS3⟩ := stagingPhase_pres env sIn
    rw [(hS3 p.2).1]
    show (stG.langs p.2).working = _
    rw [hw, hbase, hesStr]
  rw [heq]
  refine ⟨hE1, hE2, hE3, hE4, ?_, ?_⟩
  · intro lang hmem
    have : lang ∈ LANGUAGES.enum.map Prod.snd := by
      rw [List.enum_map_snd]
      exact hmem
    rcases List.mem_map.mp this with ⟨p, hp, hsnd⟩
    show (s6.langs lang).index = (s6.langs lang).working
    rw [← hsnd, hE5 p hp]
    have hInW : (sIn.langs p.2).working = (s6.langs p.2).working := by
      obtain ⟨_, _, hS3⟩ := stagingPhase_pres env sIn
      rw [(hS3 p.2).1]
    exact hInW
  · intro lang hmem
    have : lang ∈ LANGUAGES.enum.map Prod.snd := by
      rw [List.enum_map_snd]
      exact hmem
    rcases List.mem_map.mp this with ⟨p, hp, hsnd⟩
    rw [← hsnd]
    exact hworking p hp

/-! ## Claim theorems -/

/-- C1, counterexample: the claim says a failing Generation Capability call
leaves the Target's workspace byte-identical and the Target unprocessed.
At a concrete run where the OpenAI call throws for every language, the
pipeline writes `algo`'s fallback error files into the `javascript`
workspace (whose post-reset baseline has no `error.txt`) and marks
`javascript` processed — while the run indeed continues and ends with
`Progress.error` unset. -/
theorem C1_counterexample :
    (processUpdate envBoom stScenario).1 = .success LANGUAGES ∧
    "javascript" ∈ (processUpdate envBoom stScenario).2.processed ∧
    ((processUpdate envBoom stScenario).2.langs "javascript").working.get "error.txt"
      = some "Error calling GPT-5: boom" ∧
    FileMap.get cleanLangWs.index "error.txt" = none ∧
    (finalProgress (processUpdate envBoom stScenario)).error = none := by
  decide

/-- C1, amended: when the Generation Capability call for a Target fails
(throws, or returns empty or malformed output) in a run that is never
cancelled, the Run continues (the outcome is success) and `Progress.error`
stays unset — but, contrary to the original claim, the Target IS marked
processed and `algo`'s fallback error files are written into its workspace
(in particular `error.txt` exists in the final working tree). -/
theorem C1_generation_failure_writes_fallback (env : RunEnv) (e : Workspace)
    (L : String → Workspace) (lang : String)
    (h : env.abortFrom = none)
    (hmem : lang ∈ LANGUAGES)
    (hfail : (env.llm lang).failed = true) :
    (processUpdate env (initState e L)).1 =
      .success (processUpdate env (initState e L)).2.processed ∧
    (finalProgress (processUpdate env (initState e L))).error = none ∧
    lang ∈ (processUpdate env (initState e L)).2.processed ∧
    (((processUpdate env (initState e L)).2.langs lang).working.get
      "error.txt").isSome = true := by
  obtain ⟨h1, h2, h3, h4, h5⟩ := processUpdate_noAbort_spec env h e L
  refine ⟨h1, ?_, ?_, ?_⟩
  · rcases hru : processUpdate env (initState e L) with ⟨out, stF⟩
    rw [hru] at h1
    simp only at h1
    rw [h1]
    rfl
  · rw [h2]
    exact hmem
  · have hmem2 : lang ∈ LANGUAGES.enum.map Prod.snd := by
      rw [List.enum_map_snd]
      exact hmem
    rcases List.mem_map.mp hmem2 with ⟨p, hp, hsnd⟩
    obtain ⟨base, hbase⟩ := h5 p hp
    rw [← hsnd, hbase]
    have hkey : (FileMap.get (algo p.2 (concatenateFiles e.working)
        (concatenateFiles base) (env.llm p.2)) "error.txt").isSome = true := by
      apply algo_failed_error_file
      rw [hsnd]
      exact hfail
    exact FileMap.hasKey_writeAll_right base hkey

/-- C1, witness for the amended theorem: instantiated at the concrete
always-throwing environment. -/
theorem C1_generation_failure_writes_fallback_witness :
    (processUpdate envBoom stScenario).1 =
      .success (processUpdate envBoom stScenario).2.processed ∧
    (finalProgress (processUpdate envBoom stScenario)).error = none ∧
    "javascript" ∈ (processUpdate envBoom stScenario).2.processed ∧
    (((processUpdate envBoom stScenario).2.langs "javascript").working.get
      "error.txt").isSome = true :=
  C1_generation_failure_writes_fallback envBoom dirtyEnglishWs
    (fun _ => cleanLangWs) "javascript" rfl (by decide) rfl

/-- C4, counterexample: the claim says a failed revision-control operation
in the final staging phase or the specification auto-checkpoint makes the
Run terminate with `Progress.error` set.  At a concrete run where the
english `git commit` throws (and the english workspace did have staged
changes to commit, so the failure is real — its history stays unchanged),
the run nevertheless terminates successfully with `Progress.error` unset
and `fraction = 1`. -/
theorem C4_counterexample :
    FileMap.beqv dirtyEnglishWs.working dirtyEnglishWs.head = false ∧
    (processUpdate envCommitFail stScenario).1 = .success LANGUAGES ∧
    (processUpdate envCommitFail stScenario).2.english.history =
      dirtyEnglishWs.history ∧
    finalProgress (processUpdate envCommitFail stScenario) =
      { progress := 1, isRunning := false, error := none } := by
  decide

/-- C4, amended: every revision-control failure in the final staging phase
and in the specification auto-checkpoint is caught and only logged: a run
that is never cancelled terminates successfully with `Progress.error`
unset and `fraction = 1`, whatever git calls fail; already-written Target
files are not reverted (the run performs no revert) and no Target
workspace's history changes. -/
theorem C4_staging_failures_swallowed (env : RunEnv) (e : Workspace)
    (L : String → Workspace) (h : env.abortFrom = none) :
    (processUpdate env (initState e L)).1 =
      .success (processUpdate env (initState e L)).2.processed ∧
    (finalProgress (processUpdate env (initState e L))).error = none ∧
    (finalProgress (processUpdate env (initState e L))).progress = 1 ∧
    (∀ ev ∈ (processUpdate env (initState e L)).2.trace, ev.isRevert = false) ∧
    (∀ lang,
      ((processUpdate env (initState e L)).2.langs lang).history =
        (L lang).history) := by
  obtain ⟨h1, h2, h3, h4, h5⟩ := processUpdate_noAbort_spec env h e L
  rcases hru : processUpdate env (initState e L) with ⟨out, stF⟩
  rw [hru] at h1 h3 h4
  simp only at h1 h3 h4
  rw [h1]
  exact ⟨rfl, rfl, rfl, h3, fun lang => (h4 lang).2⟩

/-- C4, witness for the amended theorem: instantiated at the concrete
environment whose english commit throws. -/
theorem C4_staging_failures_swallowed_witness :
    (processUpdate envCommitFail stScenario).1 =
      .success (processUpdate envCommitFail stScenario).2.processed ∧
    (finalProgress (processUpdate envCommitFail stScenario)).error = none ∧
    (finalProgress (processUpdate envCommitFail stScenario)).progress = 1 ∧
    (∀ ev ∈ (processUpdate envCommitFail stScenario).2.trace,
      ev.isRevert = false) ∧
    (∀ lang,
      ((processUpdate envCommitFail stScenario).2.langs lang).history =
        cleanLangWs.history) :=
  C4_staging_failures_swallowed envCommitFail dirtyEnglishWs
    (fun _ => cleanLangWs) rfl

/-- C5: a run that finishes without being cancelled (and whose git calls
succeed) stages all changes in the specification workspace and in every
Target workspace (index = working tree everywhere); the specification
workspace gains exactly one new checkpoint, with the fixed message
`Update English specification`, if and only if it had staged changes;
and no Target workspace gains a checkpoint — Target histories are
untouched, their changes left staged and uncommitted. -/
theorem C5_staging_and_checkpoints (env : RunEnv) (e : Workspace)
    (L : String → Workspace) (h : env.abortFrom = none) (hok : env.gitOk) :
    (processUpdate env (initState e L)).1 =
      .success (processUpdate env (initState e L)).2.processed ∧
    (processUpdate env (initState e L)).2.english.index =
      (processUpdate env (initState e L)).2.english.working ∧
    (∀ lang ∈ LANGUAGES,
      ((processUpdate env (initState e L)).2.langs lang).index =
        ((processUpdate env (initState e L)).2.langs lang).working) ∧
    (FileMap.beqv e.working e.head = false →
      (processUpdate env (initState e L)).2.english.history =
        (englishCommitMsg, e.working) :: e.history) ∧
    (FileMap.beqv e.working e.head = true →
      (processUpdate env (initState e L)).2.english.history = e.history) ∧
    (∀ lang,
      ((processUpdate env (initState e L)).2.langs lang).history =
        (L lang).history) := by
  obtain ⟨h1, _, _, h4, _⟩ := processUpdate_noAbort_spec env h e L
  obtain ⟨g1, g2, g3, g4, g5, g6⟩ := processUpdate_noAbort_gitOk env h hok e L
  refine ⟨h1, ?_, g5, fun hb => (g3 hb).2, fun hb => (g4 hb).2,
    fun lang => (h4 lang).2⟩
  rw [g1, g2]

/-- C5, witness: instantiated at the concrete scenario (english has an
unstaged edit, so the auto-checkpoint branch actually commits). -/
theorem C5_staging_and_checkpoints_witness :
    (processUpdate envBoom stScenario).1 =
      .success (processUpdate envBoom stScenario).2.processed ∧
    (processUpdate envBoom stScenario).2.english.index =
      (processUpdate envBoom stScenario).2.english.working ∧
    (∀ lang ∈ LANGUAGES,
      ((processUpdate envBoom stScenario).2.langs lang).index =
        ((processUpdate envBoom stScenario).2.langs lang).working) ∧
    (FileMap.beqv dirtyEnglishWs.working dirtyEnglishWs.head = false →
      (processUpdate envBoom stScenario).2.english.history =
        (englishCommitMsg, dirtyEnglishWs.working) :: dirtyEnglishWs.history) ∧
    (FileMap.beqv dirtyEnglishWs.working dirtyEnglishWs.head = true →
      (processUpdate envBoom stScenario).2.english.history =
        dirtyEnglishWs.history) ∧
    (∀ lang,
      ((processUpdate envBoom stScenario).2.langs lang).history =
        cleanLangWs.history) :=
  C5_staging_and_checkpoints envBoom dirtyEnglishWs (fun _ => cleanLangWs) rfl
    ⟨fun _ => rfl, fun _ => rfl, rfl, fun _ => rfl, rfl, rfl⟩

/-- C9 (implicit): the pipeline's reset phase discards changes only in
Target workspaces, never in the specification workspace: manual unstaged
edits present in the english working tree when a (never-cancelled,
git-failure-free) run starts survive the run byte-for-byte, are staged by
it, and are included in the automatic specification checkpoint — at every
path, the final english working tree, index and HEAD agree with the
pre-run working tree. -/
theorem C9_english_edits_survive (env : RunEnv) (e : Workspace)
    (L : String → Workspace) (h : env.abortFrom = none) (hok : env.gitOk) :
    (processUpdate env (initState e L)).2.english.working = e.working ∧
    (processUpdate env (initState e L)).2.english.index = e.working ∧
    (∀ f, FileMap.get (processUpdate env (initState e L)).2.english.head f =
      FileMap.get e.working f) ∧
    (FileMap.beqv e.working e.head = false →
      (processUpdate env (initState e L)).2.english.history =
        (englishCommitMsg, e.working) :: e.history) := by
  obtain ⟨g1, g2, g3, g4, _, _⟩ := processUpdate_noAbort_gitOk env h hok e L
  refine ⟨g1, g2, ?_, fun hb => (g3 hb).2⟩
  intro f
  cases hb : FileMap.beqv e.working e.head with
  | false =>
      rw [(g3 hb).1]
  | true =>
      rw [(g4 hb).1]
      exact ((FileMap.beqv_iff_equiv e.working e.head).mp hb f).symm

/-- C9, witness: instantiated at the concrete scenario whose english
workspace has the unstaged edit `spec.md = v2`. -/
theorem C9_english_edits_survive_witness :
    (processUpdate envBoom stScenario).2.english.working =
      dirtyEnglishWs.working ∧
    (processUpdate envBoom stScenario).2.english.index =
      dirtyEnglishWs.working ∧
    (∀ f, FileMap.get (processUpdate envBoom stScenario).2.english.head f =
      FileMap.get dirtyEnglishWs.working f) ∧
    (FileMap.beqv dirtyEnglishWs.working dirtyEnglishWs.head = false →
      (processUpdate envBoom stScenario).2.english.history =
        (englishCommitMsg, dirtyEnglishWs.working) :: dirtyEnglishWs.history) :=
  C9_english_edits_survive envBoom dirtyEnglishWs (fun _ => cleanLangWs) rfl
    ⟨fun _ => rfl, fun _ => rfl, rfl, fun _ => rfl, rfl, rfl⟩

/-- C2, failing input: the save-file security check is a bare string-prefix
test on the rendered paths with no trailing separator, so
`save_file("go", "../gopher/pwn.txt", "x")` — whose normalized form leaves
the `go` workspace root for the sibling directory `gopher` — passes the
check and the file is written at `files/languages/gopher/pwn.txt`, outside
the workspace root, instead of being rejected with a validation error. -/
theorem C2_path_escape_bypass :
    saveFile "go" "../gopher/pwn.txt" "x" =
      .saved ["files", "languages", "gopher", "pwn.txt"] ∧
    ¬ (basePathOf "go" <+: ["files", "languages", "gopher", "pwn.txt"]) := by
  decide

/-- C6: for a recognized language whose folder exists, approve first
discards unstaged working-tree changes (every tracked file's working copy
returns to its staged content, surviving into the final state); then, if
nothing is staged, it answers `noStagedChanges` without error and creates
no checkpoint; if something is staged, it creates exactly one new
checkpoint whose snapshot is the staged content, with the caller-supplied
message or the default one, and reports the commit. -/
theorem C6_approve_spec (language : String) (message : Option String)
    (ws : Workspace) (hmem : language ∈ LANGUAGES) :
    (ws.hasStagedChanges = false →
      approve language message true ws = (.noStagedChanges, ws.checkoutAll)) ∧
    (ws.hasStagedChanges = true →
      (approve language message true ws).1 =
        .committed (approveMsg language message) ∧
      (approve language message true ws).2.history =
        (approveMsg language message, ws.index) :: ws.history ∧
      (approve language message true ws).2.head = ws.index) ∧
    (∀ f, ws.index.hasKey f = true →
      FileMap.get (approve language message true ws).2.working f =
        FileMap.get ws.index f) := by
  have hne : ¬(language = "") := by
    intro hcontra
    subst hcontra
    exact absurd hmem (by decide)
  have hmem2 : ¬(language ∉ LANGUAGES) := fun hcontra => hcontra hmem
  have hstg : (ws.checkoutAll).hasStagedChanges = ws.hasStagedChanges := rfl
  unfold approve
  rw [if_neg hne, if_neg hmem2, if_neg (by simp)]
  refine ⟨?_, ?_, ?_⟩
  · intro hns
    rw [if_neg (by rw [hstg, hns]; simp)]
  · intro hys
    rw [if_pos (by rw [hstg, hys])]
    exact ⟨rfl, rfl, rfl⟩
  · intro f hf
    have hco : FileMap.get ws.checkoutAll.working f = FileMap.get ws.index f :=
      Workspace.checkoutAll_working_get_tracked ws f hf
    by_cases hs : (ws.checkoutAll).hasStagedChanges = true
    · rw [if_pos hs]
      exact hco
    · rw [if_neg hs]
      exact hco

/-- C6, witness: instantiated at `javascript` with a workspace holding one
staged edit to `a.txt` and one unstaged-only edit to `b.txt`. -/
theorem C6_approve_spec_witness :
    (stagedLangWs.hasStagedChanges = false →
      approve "javascript" (some "ship it") true stagedLangWs =
        (.noStagedChanges, stagedLangWs.checkoutAll)) ∧
    (stagedLangWs.hasStagedChanges = true →
      (approve "javascript" (some "ship it") true stagedLangWs).1 =
        .committed (approveMsg "javascript" (some "ship it")) ∧
      (approve "javascript" (some "ship it") true stagedLangWs).2.history =
        (approveMsg "javascript" (some "ship it"), stagedLangWs.index) ::
          stagedLangWs.history ∧
      (approve "javascript" (some "ship it") true stagedLangWs).2.head =
        stagedLangWs.index) ∧
    (∀ f, stagedLangWs.index.hasKey f = true →
      FileMap.get (approve "javascript" (some "ship it") true stagedLangWs).2.working f =
        FileMap.get stagedLangWs.index f) :=
  C6_approve_spec "javascript" (some "ship it") stagedLangWs (by decide)

/-- C7: for a recognized language whose folder exists and which has no
staged changes, reject answers `noStagedChanges` and mutates nothing: the
returned workspace — working tree, stage, HEAD and history — is exactly
the input workspace. -/
theorem C7_reject_noop (language : String) (ws : Workspace)
    (hmem : language ∈ LANGUAGES) (hns : ws.hasStagedChanges = false) :
    reject language true ws = (.noStagedChanges, ws) := by
  have hne : ¬(language = "") := by
    intro hcontra
    subst hcontra
    exact absurd hmem (by decide)
  have hmem2 : ¬(language ∉ LANGUAGES) := fun hcontra => hcontra hmem
  unfold reject
  rw [if_neg hne, if_neg hmem2, if_neg (by simp), if_neg (by rw [hns]; simp)]

/-- C7, witness: instantiated at `python` with a workspace whose working
tree is dirty but whose stage is clean. -/
theorem C7_reject_noop_witness :
    reject "python" true unstagedLangWs = (.noStagedChanges, unstagedLangWs) :=
  C7_reject_noop "python" unstagedLangWs (by decide) (by decide)

/-- C10 (implicit): the file-diff query applies no language validation and
no path-escape check: for every language string (recognized or not) and
every non-empty file path — including paths whose normalized form leaves
the workspace root — it answers success with the committed and current
contents, each defaulting to the empty string when absent, never a
validation or not-found error. -/
theorem C10_fileDiff_no_validation (language filePath : String) (ws : Workspace)
    (fsRead : List String → Option String)
    (hl : language ≠ "") (hf : filePath ≠ "") :
    fileDiff language filePath ws fsRead =
      .ok ((FileMap.get ws.head filePath).getD "")
        ((fsRead (joinPath (basePathOf language) filePath)).getD "") := by
  unfold fileDiff
  rw [if_neg (by
    intro hcontra
    rcases hcontra with hcontra | hcontra
    · exact hl hcontra
    · exact hf hcontra)]

/-- C10, witness: an unrecognized language together with a root-escaping
path still yields a success result with empty contents. -/
theorem C10_fileDiff_no_validation_witness :
    fileDiff "klingon" "../../etc/passwd" emptyWs (fun _ => none) = .ok "" "" :=
  C10_fileDiff_no_validation "klingon" "../../etc/passwd" emptyWs (fun _ => none)
    (by decide) (by decide)

/-- C3, witness: a concrete run cancelled at the second language's
pre-generation checkpoint, after `javascript` was written — the theorem's
hypotheses hold and `javascript` is among the processed (hence reverted)
targets. -/
theorem C3_cancelled_reverts_processed_witness :
    (processUpdate envCancel stScenario).1 = .cancelled ∧
    "javascript" ∈ (processUpdate envCancel stScenario).2.processed ∧
    ((∀ lang ∈ (processUpdate envCancel stScenario).2.processed,
      ((processUpdate envCancel stScenario).2.langs lang).working =
        cleanLangWs.index ∧
      ((processUpdate envCancel stScenario).2.langs lang).index =
        cleanLangWs.index ∧
      ((processUpdate envCancel stScenario).2.langs lang).head =
        cleanLangWs.head ∧
      ((processUpdate envCancel stScenario).2.langs lang).history =
        cleanLangWs.history) ∧
    (∀ ev ∈ (processUpdate envCancel stScenario).2.trace,
      ev.isStaging = false)) :=
  ⟨by decide, by decide,
    C3_cancelled_reverts_processed envCancel dirtyEnglishWs
      (fun _ => cleanLangWs) (fun _ => rfl) (by decide)⟩

/-! ## Monotonicity of the progress fraction -/

theorem progressValues_append (t₁ t₂ : List Event) :
    progressValues (t₁ ++ t₂) = progressValues t₁ ++ progressValues t₂ := by
  unfold progressValues
  exact List.filterMap_append t₁ t₂ Event.progVal

theorem progressValues_singleton (p : ℚ) :
    progressValues [Event.progressSet p] = [p] := rfl

theorem Mono.set {st : PipeState} (h : Mono st) {p : ℚ} (hp : st.progress ≤ p) :
    Mono (setProgress p st) := by
  obtain ⟨hc, hl⟩ := h
  have htr : (setProgress p st).trace = st.trace ++ [Event.progressSet p] := rfl
  constructor
  · rw [htr, progressValues_append, progressValues_singleton]
    rw [List.chain'_append]
    refine ⟨hc, List.chain'_singleton p, ?_⟩
    intro x hx y hy
    rw [hl] at hx
    rcases Option.mem_some_iff.mp hx with rfl
    rcases Option.mem_some_iff.mp (by simpa using hy) with rfl
    exact hp
  · rw [htr, progressValues_append, progressValues_singleton,
      List.getLast?_concat]
    rfl

theorem Mono.ofNoProgress {st st' : PipeState} (h : Mono st)
    (ht : ∃ t, st'.trace = st.trace ++ t ∧ progressValues t = [])
    (hp : st'.progress = st.progress) : Mono st' := by
  obtain ⟨hc, hl⟩ := h
  obtain ⟨t, ht, hnil⟩ := ht
  constructor
  · rw [ht, progressValues_append, hnil, List.append_nil]
    exact hc
  · rw [ht, progressValues_append, hnil, List.append_nil, hp]
    exact hl

theorem progressValues_eq_nil_of_revertLang {t : List Event}
    (h : ∀ e ∈ t, ∃ lg, e = Event.revertLang lg) : progressValues t = [] := by
  unfold progressValues
  rw [List.filterMap_eq_nil_iff]
  intro e he
  obtain ⟨lg, rfl⟩ := h e he
  rfl

theorem Mono.revertAll {env : RunEnv} {st : PipeState} (h : Mono st) :
    Mono (revertAll env st) := by
  obtain ⟨_, _, hpr, ht, _, _⟩ := revertAll_spec env st
  obtain ⟨t, ht2, hall⟩ := ht
  exact h.ofNoProgress ⟨t, ht2, progressValues_eq_nil_of_revertLang hall⟩ hpr

theorem Mono.bump {st : PipeState} (h : Mono st) :
    Mono ({ st with clock := st.clock + 1 }) :=
  h.ofNoProgress ⟨[], by simp, rfl⟩ rfl

theorem Mono.cancelCatch {env : RunEnv} {st : PipeState} (h : Mono st) :
    Mono (cancelCatch env st).2 ∧ (cancelCatch env st).2.progress = st.progress := by
  obtain ⟨_, _, _, hpr, ht, _, _⟩ := cancelCatch_spec env st
  obtain ⟨t, ht2, hall⟩ := ht
  exact ⟨h.ofNoProgress ⟨t, ht2, progressValues_eq_nil_of_revertLang hall⟩ hpr, hpr⟩

theorem mono_initState (e : Workspace) (L : String → Workspace) :
    Mono (initState e L) := by
  constructor
  · show List.Chain' (· ≤ ·) [0]
    exact List.chain'_singleton 0
  · rfl

theorem numLangs_eq : numLangs = 10 := by
  norm_num [numLangs, LANGUAGES]

theorem fReset_ge (i : ℕ) : 1/10 ≤ fReset i := by
  unfold fReset
  rw [numLangs_eq]
  have h0 : (0:ℚ) ≤ (i:ℚ) := Nat.cast_nonneg i
  linarith

theorem fReset_mono {a b : ℕ} (h : a ≤ b) : fReset a ≤ fReset b := by
  unfold fReset
  rw [numLangs_eq]
  have hc : (a:ℚ) ≤ (b:ℚ) := Nat.cast_le.mpr h
  linarith

theorem fReset_le {i : ℕ} (h : i < 10) : fReset i ≤ 1/5 := by
  unfold fReset
  rw [numLangs_eq]
  have hc : (i:ℚ) ≤ 9 := by
    exact_mod_cast Nat.lt_succ_iff.mp h
  linarith

theorem fGen_ge (i : ℕ) : 1/4 ≤ fGen i := by
  unfold fGen
  rw [numLangs_eq]
  have h0 : (0:ℚ) ≤ (i:ℚ) := Nat.cast_nonneg i
  linarith

theorem fGen_mono {a b : ℕ} (h : a ≤ b) : fGen a ≤ fGen b := by
  unfold fGen
  rw [numLangs_eq]
  have hc : (a:ℚ) ≤ (b:ℚ) := Nat.cast_le.mpr h
  linarith

theorem fGen_le {i : ℕ} (h : i < 10) : fGen i ≤ 4/5 := by
  unfold fGen
  rw [numLangs_eq]
  have hc : (i:ℚ) ≤ 9 := by
    exact_mod_cast Nat.lt_succ_iff.mp h
  linarith

theorem fStage_ge (i : ℕ) : 17/20 ≤ fStage i := by
  unfold fStage
  rw [numLangs_eq]
  have h0 : (0:ℚ) ≤ (i:ℚ) := Nat.cast_nonneg i
  linarith

theorem fStage_mono {a b : ℕ} (h : a ≤ b) : fStage a ≤ fStage b := by
  unfold fStage
  rw [numLangs_eq]
  have hc : (a:ℚ) ≤ (b:ℚ) := Nat.cast_le.mpr h
  linarith

theorem fStage_le {i : ℕ} (h : i < 10) : fStage i ≤ 19/20 := by
  unfold fStage
  rw [numLangs_eq]
  have hc : (i:ℚ) ≤ 9 := by
    exact_mod_cast Nat.lt_succ_iff.mp h
  linarith

theorem enum_pairwise_mono {α : Type} (l : List α) (f : ℕ → ℚ)
    (hf : ∀ {a b : ℕ}, a ≤ b → f a ≤ f b) :
    l.enum.Pairwise (fun a b => f a.1 ≤ f b.1) := by
  rw [List.pairwise_iff_getElem]
  intro i j hi hj hij
  have hi2 : i < l.length := by simpa using hi
  have hj2 : j < l.length := by simpa using hj
  have hgi : l.enum[i] = (i, l[i]) := by
    simp
  have hgj : l.enum[j] = (j, l[j]) := by
    simp
  rw [hgi, hgj]
  exact hf (le_of_lt hij)

theorem resetLoop_mono (env : RunEnv) (B : ℚ) :
    ∀ (l : List (ℕ × String)) (st : PipeState),
    Mono st →
    (∀ p ∈ l, st.progress ≤ fReset p.1) →
    l.Pairwise (fun a b => fReset a.1 ≤ fReset b.1) →
    st.progress ≤ B →
    (∀ p ∈ l, fReset p.1 ≤ B) →
    Mono (resetLoop env l st) ∧ (resetLoop env l st).progress ≤ B := by
  intro l
  induction l with
  | nil =>
      intro st hm _ _ hB _
      exact ⟨hm, hB⟩
  | cons pr rest ih =>
      intro st hm hstart hpw hB hbnd
      obtain ⟨i, language⟩ := pr
      rw [resetLoop]
      obtain ⟨hhead, hrest⟩ := List.pairwise_cons.mp hpw
      have hmP : Mono (setProgress (1/10 + (1/10) * i / numLangs) st) :=
        hm.set (hstart (i, language) (List.mem_cons_self _ _))
      by_cases hf : env.resetFails language = true
      · rw [if_pos hf]
        refine ih _ hmP (fun p hp => hhead p hp) hrest
          (hbnd (i, language) (List.mem_cons_self _ _))
          (fun p hp => hbnd p (List.mem_cons_of_mem _ hp))
      · rw [if_neg hf]
        have hm₁ : Mono (recordEvent (.resetLang language)
            (updateLang (setProgress (1/10 + (1/10) * i / numLangs) st) language
              (((setProgress (1/10 + (1/10) * i / numLangs) st).langs language).resetToIndex))) := by
          refine hmP.ofNoProgress ⟨[Event.resetLang language], ?_, rfl⟩ rfl
          simp [recordEvent, updateLang]
        refine ih _ hm₁ (fun p hp => hhead p hp) hrest
          (hbnd (i, language) (List.mem_cons_self _ _))
          (fun p hp => hbnd p (List.mem_cons_of_mem _ hp))

theorem stageLoop_mono (env : RunEnv) (B : ℚ) :
    ∀ (l : List (ℕ × String)) (st : PipeState),
    Mono st →
    (∀ p ∈ l, st.progress ≤ fStage p.1) →
    l.Pairwise (fun a b => fStage a.1 ≤ fStage b.1) →
    st.progress ≤ B →
    (∀ p ∈ l, fStage p.1 ≤ B) →
    Mono (stageLoop env l st) ∧ (stageLoop env l st).progress ≤ B := by
  intro l
  induction l with
  | nil =>
      intro st hm _ _ hB _
      exact ⟨hm, hB⟩
  | cons pr rest ih =>
      intro st hm hstart hpw hB hbnd
      obtain ⟨i, language⟩ := pr
      rw [stageLoop]
      obtain ⟨hhead, hrest⟩ := List.pairwise_cons.mp hpw
      have hmP : Mono (setProgress (17/20 + (1/10) * i / numLangs) st) :=
        hm.set (hstart (i, language) (List.mem_cons_self _ _))
      by_cases hf : env.stageLangFails language = true
      · rw [if_pos hf]
        refine ih _ hmP (fun p hp => hhead p hp) hrest
          (hbnd (i, language) (List.mem_cons_self _ _))
          (fun p hp => hbnd p (List.mem_cons_of_mem _ hp))
      · rw [if_neg hf]
        have hm₁ : Mono (recordEvent (.stageLang language)
            (updateLang (setProgress (17/20 + (1/10) * i / numLangs) st) language
              (((setProgress (17/20 + (1/10) * i / numLangs) st).langs language).addAll))) := by
          refine hmP.ofNoProgress ⟨[Event.stageLang language], ?_, rfl⟩ rfl
          simp [recordEvent, updateLang]
        refine ih _ hm₁ (fun p hp => hhead p hp) hrest
          (hbnd (i, language) (List.mem_cons_self _ _))
          (fun p hp => hbnd p (List.mem_cons_of_mem _ hp))

theorem genLoop_mono (env : RunEnv) (es : String) (B : ℚ) :
    ∀ (l : List (ℕ × String)) (st : PipeState),
    Mono st →
    (∀ p ∈ l, st.progress ≤ fGen p.1) →
    l.Pairwise (fun a b => fGen a.1 ≤ fGen b.1) →
    st.progress ≤ B →
    (∀ p ∈ l, fGen p.1 ≤ B) →
    (∀ st', genLoop env es l st = .finished st' → Mono st' ∧ st'.progress ≤ B) ∧
    (∀ st', genLoop env es l st = .cancelledInLoop st' → Mono st') := by
  intro l
  induction l with
  | nil =>
      intro st hm _ _ hB _
      constructor
      · intro st' h
        rw [genLoop] at h
        cases h
        exact ⟨hm, hB⟩
      · intro st' h
        rw [genLoop] at h
        cases h
  | cons pr rest ih =>
      intro st hm hstart hpw hB hbnd
      obtain ⟨i, language⟩ := pr
      obtain ⟨hhead, hrest⟩ := List.pairwise_cons.mp hpw
      by_cases hc : isAborted env st.clock = true
      · have heq : genLoop env es ((i, language) :: rest) st =
            .cancelledInLoop (revertAll env { st with clock := st.clock + 1 }) := by
          rw [genLoop]
          simp only [consult]
          rw [if_pos hc]
        constructor
        · intro st' h
          rw [heq] at h
          cases h
        · intro st' h
          rw [heq] at h
          cases h
          exact Mono.revertAll hm.bump
      · set stA := setProgress (1/4 + (11/20) * i / numLangs)
          { st with clock := st.clock + 1 } with hstA
        have hmA : Mono stA :=
          (hm.bump).set (hstart (i, language) (List.mem_cons_self _ _))
        by_cases hc2 : isAborted env stA.clock = true
        · have heq : genLoop env es ((i, language) :: rest) st =
              .cancelledInLoop (revertAll env { stA with clock := stA.clock + 1 }) := by
            rw [genLoop]
            simp only [consult]
            rw [if_neg hc, ← hstA, if_pos hc2]
          constructor
          · intro st' h
            rw [heq] at h
            cases h
          · intro st' h
            rw [heq] at h
            cases h
            exact Mono.revertAll hmA.bump
        · set result := algo language es
            (concatenateFiles (stA.langs language).working) (env.llm language) with hres
          set wsNew := { stA.langs language with
            working := (stA.langs language).working.writeAll result } with hws
          set st₂ := { recordEvent (.writeFiles language result)
              (updateLang { stA with clock := stA.clock + 1 } language wsNew) with
            processed := (recordEvent (.writeFiles language result)
              (updateLang { stA with clock := stA.clock + 1 } language wsNew)).processed
                ++ [language] } with hst₂
          have heq : genLoop env es ((i, language) :: rest) st =
              genLoop env es rest st₂ := by
            rw [genLoop]
            simp only [consult]
            rw [if_neg hc, ← hstA, if_neg hc2, ← hres, ← hws, ← hst₂]
          have hm₂ : Mono st₂ := by
            refine hmA.ofNoProgress
              ⟨[Event.writeFiles language result], ?_, rfl⟩ rfl
            simp [hst₂, recordEvent, updateLang]
          have hprog₂ : st₂.progress = 1/4 + (11/20) * i / numLangs := rfl
          have := ih st₂ hm₂
            (fun p hp => by rw [hprog₂]; exact hhead p hp) hrest
            (by rw [hprog₂]; exact hbnd (i, language) (List.mem_cons_self _ _))
            (fun p hp => hbnd p (List.mem_cons_of_mem _ hp))
          constructor
          · intro st' h
            rw [heq] at h
            exact this.1 st' h
          · intro st' h
            rw [heq] at h
            exact this.2 st' h

theorem stagingPhase_mono (env : RunEnv) (st : PipeState) (hm : Mono st)
    (hb : st.progress ≤ 4/5) :
    Mono (stagingPhase env st) ∧ (stagingPhase env st).progress = 19/20 := by
  have htail : ∀ stX : PipeState, Mono stX →
      Mono (if env.diffEnglishFails then stX
        else if stX.english.hasStagedChanges then
          if env.commitEnglishFails then stX
          else recordEvent (.commitEnglish englishCommitMsg)
            { stX with english := stX.english.commit englishCommitMsg }
        else stX) ∧
      (if env.diffEnglishFails then stX
        else if stX.english.hasStagedChanges then
          if env.commitEnglishFails then stX
          else recordEvent (.commitEnglish englishCommitMsg)
            { stX with english := stX.english.commit englishCommitMsg }
        else stX).progress = stX.progress := by
    intro stX hmX
    by_cases hd : env.diffEnglishFails = true
    · rw [if_pos hd]
      exact ⟨hmX, rfl⟩
    · rw [if_neg hd]
      by_cases hs : stX.english.hasStagedChanges = true
      · rw [if_pos hs]
        by_cases hcf : env.commitEnglishFails = true
        · rw [if_pos hcf]
          exact ⟨hmX, rfl⟩
        · rw [if_neg hcf]
          refine ⟨hmX.ofNoProgress
            ⟨[Event.commitEnglish englishCommitMsg], by simp [recordEvent], rfl⟩ rfl, rfl⟩
      · rw [if_neg hs]
        exact ⟨hmX, rfl⟩
  unfold stagingPhase
  set s2 := setProgress (17/20) (setProgress (4/5) st) with hs2
  have hm2 : Mono s2 := (hm.set hb).set (by show (4/5:ℚ) ≤ 17/20; norm_num)
  set s3 := if env.stageEnglishFails then s2
    else recordEvent .stageEnglish { s2 with english := s2.english.addAll } with hs3
  have hm3 : Mono s3 ∧ s3.progress = 17/20 := by
    rw [hs3]
    by_cases hse : env.stageEnglishFails = true
    · rw [if_pos hse]
      exact ⟨hm2, rfl⟩
    · rw [if_neg hse]
      refine ⟨hm2.ofNoProgress ⟨[Event.stageEnglish], by simp [recordEvent], rfl⟩ rfl, rfl⟩
  obtain ⟨hmL, hbL⟩ := stageLoop_mono env (19/20) LANGUAGES.enum s3 hm3.1
    (by
      intro p hp
      rw [hm3.2]
      exact fStage_ge p.1)
    (enum_pairwise_mono LANGUAGES fStage (fun h => fStage_mono h))
    (by rw [hm3.2]; norm_num)
    (List.forall_mem_enum.mpr (fun i hi => fStage_le hi))
  set s5 := setProgress (19/20) (stageLoop env LANGUAGES.enum s3) with hs5
  have hm5 : Mono s5 := hmL.set hbL
  obtain ⟨hmT, hpT⟩ := htail s5 hm5
  exact ⟨hmT, hpT⟩

/-- C8: within a single run, the progress fraction is monotonically
non-decreasing: over every execution of the pipeline (any cancellation
timing, any generation outcomes, any git failures), the sequence of values
written to `updateProgress.progress` forms a non-decreasing chain whose
last element is the final progress value; and when the run fails
(cancellation), the terminal `Progress` keeps that last value instead of
resetting to 0. -/
theorem C8_monotonic_progress (env : RunEnv) (e : Workspace)
    (L : String → Workspace) :
    List.Chain' (· ≤ ·)
      (progressValues (processUpdate env (initState e L)).2.trace) ∧
    (progressValues (processUpdate env (initState e L)).2.trace).getLast? =
      some (processUpdate env (initState e L)).2.progress ∧
    ((processUpdate env (initState e L)).1 = .cancelled →
      (finalProgress (processUpdate env (initState e L))).progress =
        (processUpdate env (initState e L)).2.progress) := by
  have hfinal : ∀ r : RunOutcome × PipeState, r.1 = .cancelled →
      (finalProgress r).progress = r.2.progress := by
    rintro ⟨out, stX⟩ hout
    cases out with
    | success pr => exact absurd hout (by simp)
    | cancelled => rfl
  suffices hM : Mono (processUpdate env (initState e L)).2 by
    exact ⟨hM.1, hM.2, hfinal _⟩
  set st₀ := initState e L with hst₀
  have hm₀ := mono_initState e L
  by_cases hc0 : isAborted env st₀.clock = true
  · have heq : processUpdate env st₀ =
        cancelCatch env { st₀ with clock := st₀.clock + 1 } := by
      unfold processUpdate
      simp only [consult]
      rw [if_pos hc0]
    rw [heq]
    exact (Mono.cancelCatch hm₀.bump).1
  · set s2 := setProgress (1/10) (setProgress (1/20)
      { st₀ with clock := st₀.clock + 1 }) with hs2
    have hm2 : Mono s2 :=
      ((hm₀.bump).set (by show (0:ℚ) ≤ 1/20; norm_num)).set
        (by show (1/20:ℚ) ≤ 1/10; norm_num)
    obtain ⟨hmR, hbR⟩ := resetLoop_mono env (1/5) LANGUAGES.enum s2 hm2
      (fun p _ => fReset_ge p.1)
      (enum_pairwise_mono LANGUAGES fReset (fun h => fReset_mono h))
      (by show (1/10 : ℚ) ≤ 1/5; norm_num)
      (List.forall_mem_enum.mpr (fun i hi => fReset_le hi))
    set sR := resetLoop env LANGUAGES.enum s2 with hsR
    by_cases hc1 : isAborted env sR.clock = true
    · have heq : processUpdate env st₀ =
          cancelCatch env { sR with clock := sR.clock + 1 } := by
        unfold processUpdate
        simp only [consult]
        rw [if_neg hc0, ← hs2, ← hsR, if_pos hc1]
      rw [heq]
      exact (Mono.cancelCatch hmR.bump).1
    · set s3 := setProgress (1/5) { sR with clock := sR.clock + 1 } with hs3
      have hm3 : Mono s3 := (hmR.bump).set hbR
      set esStr := concatenateFiles s3.english.working with hesStr
      obtain ⟨hfin, hcanc⟩ := genLoop_mono env esStr (4/5) LANGUAGES.enum s3 hm3
        (fun p _ => le_trans (by norm_num : (1/5 : ℚ) ≤ 1/4) (fGen_ge p.1))
        (enum_pairwise_mono LANGUAGES fGen (fun h => fGen_mono h))
        (by show (1/5 : ℚ) ≤ 4/5; norm_num)
        (List.forall_mem_enum.mpr (fun i hi => fGen_le hi))
      cases hg : genLoop env esStr LANGUAGES.enum s3 with
      | cancelledInLoop stc =>
          have heq : processUpdate env st₀ = cancelCatch env stc := by
            unfold processUpdate
            simp only [consult]
            rw [if_neg hc0, ← hs2, ← hsR, if_neg hc1, ← hs3, ← hesStr, hg]
          rw [heq]
          exact (Mono.cancelCatch (hcanc stc hg)).1
      | finished stG =>
          obtain ⟨hmG, hbG⟩ := hfin stG hg
          by_cases hcg : isAborted env stG.clock = true
          · have heq : processUpdate env st₀ =
                (.success (setProgress 1 { stG with clock := stG.clock + 1 }).processed,
                 setProgress 1 { stG with clock := stG.clock + 1 }) := by
              unfold processUpdate
              simp only [consult]
              rw [if_neg hc0, ← hs2, ← hsR, if_neg hc1, ← hs3, ← hesStr]
              simp only [hg]
              rw [if_pos hcg]
            rw [heq]
            exact (hmG.bump).set (le_trans hbG (by norm_num))
          · have heq : processUpdate env st₀ =
                (.success (setProgress 1 (stagingPhase env
                    { stG with clock := stG.clock + 1 })).processed,
                 setProgress 1 (stagingPhase env
                    { stG with clock := stG.clock + 1 })) := by
              unfold processUpdate
              simp only [consult]
              rw [if_neg hc0, ← hs2, ← hsR, if_neg hc1, ← hs3, ← hesStr]
              simp only [hg]
              rw [if_neg hcg]
            rw [heq]
            obtain ⟨hmS, hpS⟩ := stagingPhase_mono env
              { stG with clock := stG.clock + 1 } hmG.bump hbG
            exact hmS.set (by rw [hpS]; norm_num)

/-- C8, witness: instantiated at the concrete cancelled run, which also
discharges the failure branch of the claim — the terminal progress equals
the last written value. -/
theorem C8_monotonic_progress_witness :
    List.Chain' (· ≤ ·)
      (progressValues (processUpdate envCancel stScenario).2.trace) ∧
    (progressValues (processUpdate envCancel stScenario).2.trace).getLast? =
      some (processUpdate envCancel stScenario).2.progress ∧
    (finalProgress (processUpdate envCancel stScenario)).progress =
      (processUpdate envCancel stScenario).2.progress := by
  obtain ⟨h1, h2, h3⟩ :=
    C8_monotonic_progress envCancel dirtyEnglishWs (fun _ => cleanLangWs)
  exact ⟨h1, h2, h3 (by decide)⟩

end Blacksmith
